import Mathlib

/-!
# Verification of `cate.util.cache` (the `Cache` engine and its stores)

Shallow embedding of `src/cate/util/cache.py`.

Modelling conventions, chosen to mirror the Python source:

* Python values cached by the engine are modelled by `Option PyValue`:
  `none` is Python's `None`, `some v` is any other object.  A `PyValue`
  carries its own in-memory footprint `nbytes` (the source's
  `_compute_object_size` returns `obj.nbytes` for buffer-like values and a
  `sys.getsizeof` estimate otherwise; we model a value as carrying that
  number) and its Python truthiness `truthy`.
* Sizes, capacities, thresholds and clock readings are rationals (`ℚ`):
  the source uses Python floats (`threshold=0.75`, `time.clock()` deltas)
  and integers interchangeably.
* The global clock `time.clock() - _T0` is modelled as a counter in the
  `World`, advanced by one at every read inside `Item._access`; this
  idealises a strictly monotone clock with distinct readings.
* A store (`CacheStore`) is a record of operations over a store-state type
  `σ` and a stored-representation type `ρ`; fallible operations return
  `Except Err _`.  The memory store is stateless (`σ = Unit`) because its
  stored representation `[key, value]` is owned by the item holding it; the
  file store's state is the file system, a finite map from paths to
  payloads.
* `Cache._item_dict` and `Cache._item_list` hold the same items (the dict
  maps each item's key to the item object itself, aliased with the list
  entry, and keys are unique while the engine's own invariants hold).  We
  therefore represent the resident set once, as the ordered `item_list`,
  and model `self._item_dict.get(key)` as the first item in the list with
  that key.  In `clear`, `list(self._item_dict.keys())` is modelled as the
  keys of `item_list` in list order (the Python dict iterates in insertion
  order, which can differ from the list order after a `trim` sorted the
  list; only the processing order of `clear` is affected, and no property
  below depends on it).
* Python exceptions are modelled by `Err`; an operation that raises
  returns `Except.error` together with the state as mutated up to the
  point of the raise.  `Err.typeErrorNotCallable` models the `TypeError`
  produced by `raise NotImplemented()` (calling the non-callable
  `NotImplemented` singleton); `Err.attributeError` models the
  `AttributeError` produced by calling `.restore(...)` on a plain cached
  value (values have no such attribute); `Err.keyMismatch` models the
  `ValueError('key does not match stored value')`.
* The engine's public methods recurse through `trim`/`_add_item` in a way
  that is terminating only semantically, so the mutually recursive block
  takes a fuel argument; exhausted fuel returns `Err.fuel` with the state
  unchanged.  `remove_value` only recurses along the (finite) parent
  chain and needs no fuel.
* `Cache.Item.__init__` sets `key = None`; an item's key is observable
  only once `store`/`_load_from_key` has set it to the real key, so we use
  `key : String` with `""` as the unbound default.
-/

namespace CateCache

/-- Python exceptions that the cache code can raise. -/
inductive Err where
  /-- `ValueError('key does not match stored value')` from the memory store. -/
  | keyMismatch
  /-- `TypeError` from `raise NotImplemented()`: the `NotImplemented`
  singleton is not callable, so the call itself raises `TypeError`
  (the author presumably meant `NotImplementedError`). -/
  | typeErrorNotCallable
  /-- `AttributeError` from calling `.restore(...)` on a plain value. -/
  | attributeError
  /-- `TypeError` from subscripting `None` (`stored_value[0]` when the
  stored representation is `None`). -/
  | typeErrorNoneSubscript
  /-- An `IOError`/`OSError` from a file operation. -/
  | ioError
  /-- Modelling artifact: recursion fuel exhausted. -/
  | fuel
deriving DecidableEq, Repr

/-- A cached Python object other than `None`: carries its identity
`data`, its in-memory footprint `nbytes` (what `_compute_object_size`
reports for it) and its truthiness. -/
structure PyValue where
  data : Nat
  nbytes : ℚ
  truthy : Bool
deriving DecidableEq, Repr

/-- `sys.getsizeof(None)` on CPython. -/
def noneFootprint : ℚ := 16

/-- `_compute_object_size(obj)`: a value reports its own footprint;
`None` has the interpreter's fixed footprint. -/
def _compute_object_size : Option PyValue → ℚ
  | none => noneFootprint
  | some v => v.nbytes

/-- Python truthiness of a cached value (`None` is falsy). -/
def pyTruthy : Option PyValue → Bool
  | none => false
  | some v => v.truthy

/-- Global mutable state outside any one engine: the monotone clock
(`time.clock() - _T0`) and the store state shared by the store objects
(for the memory store there is none; for the file store, the file
system). -/
structure World (σ : Type) where
  clock : ℚ
  store : σ
deriving Repr

/-- The `CacheStore` interface over store-state `σ` and stored
representation `ρ`.  `restore_value` and `discard_value` receive the
item's `stored_value` field, which is `none` for an unbound/reset item. -/
structure CacheStore (σ ρ : Type) where
  can_load_from_key : σ → String → Bool
  load_from_key : σ → String → Except Err (ρ × ℚ × σ)
  store_value : σ → String → Option PyValue → Except Err (ρ × ℚ × σ)
  restore_value : σ → String → Option ρ → Except Err (Option PyValue × σ)
  discard_value : σ → String → Option ρ → Except Err σ

/-- Stored representation used by `MemoryCacheStore`: the mutable pair
`[key, value]` returned by `store_value` (the value slot is `None`-able,
both because the cached value may itself be `None` and because
`discard_value` clears it). -/
structure MemRep where
  key : String
  val : Option PyValue
deriving DecidableEq, Repr

/-- `MemoryCacheStore`: `can_load_from_key` is always false,
`load_from_key` executes `raise NotImplemented()` (which raises
`TypeError`), `store_value` wraps `[key, value]` with
`_compute_object_size`, `restore_value` and `discard_value` check the
embedded key first. -/
def MemoryCacheStore : CacheStore Unit MemRep where
  can_load_from_key := fun _ _ => false
  load_from_key := fun _ _ => .error .typeErrorNotCallable
  store_value := fun s key value => .ok (⟨key, value⟩, _compute_object_size value, s)
  restore_value := fun s key rep =>
    match rep with
    | none => .error .typeErrorNoneSubscript
    | some r => if r.key = key then .ok (r.val, s) else .error .keyMismatch
  discard_value := fun s key rep =>
    match rep with
    | none => .error .typeErrorNoneSubscript
    | some r => if r.key = key then .ok s else .error .keyMismatch

/-- A file on disk: its byte content, identified like a `PyValue`
(`nbytes` is the byte length reported by `os.path.getsize`). -/
def FileSystem : Type := List (String × PyValue)

/-- `os.path.exists` over the modelled file system. -/
def fsExists (fs : FileSystem) (path : String) : Bool :=
  (List.find? (fun e => e.1 = path) fs).isSome

/-- Look a path up in the modelled file system. -/
def fsGet (fs : FileSystem) (path : String) : Option PyValue :=
  (List.find? (fun e => e.1 = path) fs).map (·.2)

/-- Write a path (overwriting any previous content). -/
def fsPut (fs : FileSystem) (path : String) (content : PyValue) : FileSystem :=
  (path, content) :: List.filter (fun e => ¬ (e.1 = path)) fs

/-- `os.remove`, as a pure deletion (the caller decides what a missing
path means). -/
def fsRemove (fs : FileSystem) (path : String) : FileSystem :=
  List.filter (fun e => ¬ (e.1 = path)) fs

/-- `FileCacheStore._key_to_path`: `os.path.join(cache_dir, str(key) + ext)`. -/
def key_to_path (cache_dir ext key : String) : String :=
  cache_dir ++ "/" ++ key ++ ext

/-- `FileCacheStore(cache_dir, ext)`: stores a value as the byte content
of the file at `key_to_path`; the stored representation is the path.
`store_value` expects a byte-like value (a `none` value models passing
`None` to `fp.write`, a caller contract violation surfaced as an error).
`discard_value` swallows the missing-file error (`except IOError: pass`,
and in Python 3 `IOError` is `OSError`, which covers `FileNotFoundError`),
so it never fails. -/
def FileCacheStore (cache_dir ext : String) : CacheStore FileSystem String where
  can_load_from_key := fun fs key => fsExists fs (key_to_path cache_dir ext key)
  load_from_key := fun fs key =>
    match fsGet fs (key_to_path cache_dir ext key) with
    | none => .error .ioError
    | some content => .ok (key_to_path cache_dir ext key, content.nbytes, fs)
  store_value := fun fs key value =>
    match value with
    | none => .error .ioError
    | some v => .ok (key_to_path cache_dir ext key, v.nbytes,
                     fsPut fs (key_to_path cache_dir ext key) v)
  restore_value := fun fs key _rep =>
    match fsGet fs (key_to_path cache_dir ext key) with
    | none => .error .ioError
    | some content => .ok (some content, fs)
  discard_value := fun fs key _rep =>
    .ok (fsRemove fs (key_to_path cache_dir ext key))

/-- `Cache.Item`: the per-key bookkeeping record.  `creation_time` exists
in the source but is never written after `__init__`. -/
structure Item (ρ : Type) where
  key : String
  stored_value : Option ρ
  stored_size : ℚ
  creation_time : ℚ
  access_time : ℚ
  access_count : Nat
deriving Repr, DecidableEq

/-- `Cache.Item.__init__`. -/
def Item.init {ρ : Type} : Item ρ :=
  { key := "", stored_value := none, stored_size := 0,
    creation_time := 0, access_time := 0, access_count := 0 }

/-- `Item._access`: read the clock into `access_time` and bump
`access_count`; the model advances the clock at each read. -/
def Item.access {ρ σ : Type} (it : Item ρ) (w : World σ) : Item ρ × World σ :=
  ({ it with access_time := w.clock, access_count := it.access_count + 1 },
   { w with clock := w.clock + 1 })

/-- `Cache.Item.store`: set the key, reset the access count, touch the
clock, then store through the `CacheStore`. -/
def Item.storeOp {σ ρ : Type} (S : CacheStore σ ρ) (it : Item ρ) (key : String)
    (value : Option PyValue) (w : World σ) : Except Err (Item ρ) × World σ :=
  let it1 := { it with key := key, access_count := 0 }
  let p := it1.access w
  match S.store_value p.2.store key value with
  | .error e => (.error e, p.2)
  | .ok (rep, sz, st) =>
      (.ok { p.1 with stored_value := some rep, stored_size := sz },
       { p.2 with store := st })

/-- `Cache.Item.restore`: touch the clock, then restore through the
`CacheStore`.  The updated item is returned even when the store raises
(the access bump has already happened). -/
def Item.restoreOp {σ ρ : Type} (S : CacheStore σ ρ) (it : Item ρ) (key : String)
    (w : World σ) : Except Err (Option PyValue) × Item ρ × World σ :=
  let p := it.access w
  match S.restore_value p.2.store key it.stored_value with
  | .error e => (.error e, p.1, p.2)
  | .ok (v, st) => (.ok v, p.1, { p.2 with store := st })

/-- `Cache.Item.load_from_key` (static): `none` when the store cannot
load the key, otherwise a fresh item populated via
`Item._load_from_key`. -/
def Item.loadFromKey {σ ρ : Type} (S : CacheStore σ ρ) (key : String)
    (w : World σ) : Except Err (Option (Item ρ)) × World σ :=
  if S.can_load_from_key w.store key then
    let it1 := { (Item.init : Item ρ) with key := key, access_count := 0 }
    let p := it1.access w
    match S.load_from_key p.2.store key with
    | .error e => (.error e, p.2)
    | .ok (rep, sz, st) =>
        (.ok (some { p.1 with stored_value := some rep, stored_size := sz }),
         { p.2 with store := st })
  else (.ok none, w)

/-- Replacement policy `_policy_lru`: score is the last access time. -/
def _policy_lru {ρ : Type} (item : Item ρ) : ℚ := item.access_time

/-- Replacement policy `_policy_mru`: negated last access time. -/
def _policy_mru {ρ : Type} (item : Item ρ) : ℚ := -item.access_time

/-- Replacement policy `_policy_lfu`: access count. -/
def _policy_lfu {ρ : Type} (item : Item ρ) : ℚ := (item.access_count : ℚ)

/-- Replacement policy `_policy_rr`: access count parity. -/
def _policy_rr {ρ : Type} (item : Item ρ) : ℚ := ((item.access_count % 2 : Nat) : ℚ)

/-- The cache engine state.  `parent_cache` makes the type recursive, so
`Cache` is an inductive with a single constructor; the fields follow
`Cache.__init__` (`_store` lives outside, as the `CacheStore` the
operations are parameterised by; `_lock` has no pure content). -/
inductive Cache (ρ : Type) : Type where
  | mk (capacity : ℚ) (threshold : ℚ) (policy : Item ρ → ℚ)
       (parent_cache : Option (Cache ρ)) (size : ℚ) (max_size : ℚ)
       (item_list : List (Item ρ)) : Cache ρ

namespace Cache

variable {ρ : Type}

/-- `Cache._capacity`. -/
def capacity : Cache ρ → ℚ | .mk c _ _ _ _ _ _ => c

/-- `Cache._threshold`. -/
def threshold : Cache ρ → ℚ | .mk _ t _ _ _ _ _ => t

/-- `Cache._policy`. -/
def policy : Cache ρ → (Item ρ → ℚ) | .mk _ _ p _ _ _ _ => p

/-- `Cache._parent_cache`. -/
def parent_cache : Cache ρ → Option (Cache ρ) | .mk _ _ _ pc _ _ _ => pc

/-- `Cache._size`. -/
def size : Cache ρ → ℚ | .mk _ _ _ _ s _ _ => s

/-- `Cache._max_size`. -/
def max_size : Cache ρ → ℚ | .mk _ _ _ _ _ m _ => m

/-- `Cache._item_list` (also the content of `Cache._item_dict`, see the
module comment). -/
def item_list : Cache ρ → List (Item ρ) | .mk _ _ _ _ _ _ l => l

/-- Replace the item list. -/
def withItems : Cache ρ → List (Item ρ) → Cache ρ
  | .mk c t p pc s m _, l => .mk c t p pc s m l

/-- Replace the size. -/
def withSize : Cache ρ → ℚ → Cache ρ
  | .mk c t p pc _ m l, s => .mk c t p pc s m l

/-- Replace the parent. -/
def withParent : Cache ρ → Option (Cache ρ) → Cache ρ
  | .mk c t p _ s m l, pc => .mk c t p pc s m l

/-- `Cache.__init__(store, capacity, threshold, policy, parent_cache)`:
`max_size = capacity * threshold`, empty index, zero size. -/
def init (capacity threshold : ℚ) (policy : Item ρ → ℚ)
    (parent : Option (Cache ρ)) : Cache ρ :=
  .mk capacity threshold policy parent 0 (capacity * threshold) []

/-- `self._item_dict.get(key)`: the resident item with the given key. -/
def findItem (c : Cache ρ) (key : String) : Option (Item ρ) :=
  c.item_list.find? (fun it => it.key = key)

end Cache

/-- Remove the first item carrying the given key (`_item_dict.pop` plus
`_item_list.remove` under the engine's key-uniqueness invariant). -/
def removeFirstByKey {ρ : Type} (key : String) : List (Item ρ) → List (Item ρ)
  | [] => []
  | it :: rest => if it.key = key then rest else it :: removeFirstByKey key rest

/-- Replace the first item carrying the given key (in-place mutation of
the aliased item object). -/
def setFirstByKey {ρ : Type} (key : String) (it' : Item ρ) :
    List (Item ρ) → List (Item ρ)
  | [] => []
  | it :: rest => if it.key = key then it' :: rest else it :: setFirstByKey key it' rest

/-- The eviction-candidate scan inside `Cache.trim`: walk the (sorted)
item list with the running `size`; whenever `size + extra_size` still
exceeds `max_size`, mark the item's key and deduct its size. -/
def trimSelect {ρ : Type} (max_size extra_size : ℚ) :
    ℚ → List (Item ρ) → List String
  | _, [] => []
  | size, it :: rest =>
      if size + extra_size > max_size then
        it.key :: trimSelect max_size extra_size (size - it.stored_size) rest
      else
        trimSelect max_size extra_size size rest

/-- Sum of `stored_size` over a list of items. -/
def sumSizes {ρ : Type} (l : List (Item ρ)) : ℚ :=
  (l.map (·.stored_size)).sum

/-- Result of one engine operation: the returned value or the raised
exception, the updated engine, and the updated world. -/
structure Res (α ρ σ : Type) where
  ret : Except Err α
  cache : Cache ρ
  world : World σ

/-- `Cache.remove_value`: remove from the parent tier first, then, if
resident here, run `_remove_item` (pop from the index, drop from the
list, deduct the size) and discard the stored representation.  Recursion
is along the finite parent chain only. -/
def remove_value {σ ρ : Type} (S : CacheStore σ ρ) :
    Cache ρ → World σ → String → Res Unit ρ σ
  | .mk cap th pol parent sz mx items, w, key =>
    match (match parent with
           | none => (Except.ok (), none, w)
           | some p =>
             let r := remove_value S p w key
             (r.ret, some r.cache, r.world)) with
    | (.error e, parent', w') => ⟨.error e, .mk cap th pol parent' sz mx items, w'⟩
    | (.ok _, parent', w') =>
      match (Cache.mk cap th pol parent' sz mx items).findItem key with
      | none => ⟨.ok (), .mk cap th pol parent' sz mx items, w'⟩
      | some item =>
        let items' := removeFirstByKey key items
        let sz' := sz - item.stored_size
        match S.discard_value w'.store key item.stored_value with
        | .error e => ⟨.error e, .mk cap th pol parent' sz' mx items', w'⟩
        | .ok st => ⟨.ok (), .mk cap th pol parent' sz' mx items',
                     { w' with store := st }⟩

/-- Selector for the engine's mutually recursive internal operations
(`get_value`, the load tail of `get_value`, `put_value`, `_add_item`,
`trim`, `trim`'s eviction loop, `clear`, and `clear`'s per-key loop).
The mutual recursion is expressed as a single fuel-indexed function
`engineStep` over this sum so that it is structurally recursive on the
fuel and hence computable by the kernel; the eight named operations
below are thin wrappers around it. -/
inductive ECall (ρ : Type) where
  | eget (c : Cache ρ) (key : String)
  | eload (c : Cache ρ) (key : String)
  | eput (c : Cache ρ) (key : String) (value : Option PyValue)
  | eadd (it : Item ρ) (c : Cache ρ)
  | etrim (c : Cache ρ) (extra_size : ℚ)
  | eevict (ks : List String) (c : Cache ρ)
  | eclear (clear_parent : Bool) (c : Cache ρ)
  | eloop (ks : List String) (clear_parent : Bool) (c : Cache ρ)

/-- The engine state a call operates on. -/
def ECall.engine {ρ : Type} : ECall ρ → Cache ρ
  | .eget c _ => c
  | .eload c _ => c
  | .eput c _ _ => c
  | .eadd _ c => c
  | .etrim c _ => c
  | .eevict _ c => c
  | .eclear _ c => c
  | .eloop _ _ c => c

/-- One step of the engine's recursive operations; see the wrappers
below for the correspondence with the source methods.  Every operation
returns `Res (Option PyValue)`: the Python methods other than
`get_value` all return `None`, modelled as a normal return of `none`. -/
def engineStep {σ ρ : Type} (S : CacheStore σ ρ) :
    Nat → ECall ρ → World σ → Res (Option PyValue) ρ σ
  | 0, call, w => ⟨.error .fuel, call.engine, w⟩
  | n + 1, .eget c key, w =>
    match c.findItem key with
    | some it =>
      let r := Item.restoreOp S it key w
      ⟨r.1, c.withItems (setFirstByKey key r.2.1 c.item_list), r.2.2⟩
    | none =>
      match c.parent_cache with
      | some p =>
        let g := engineStep S n (.eget p key) w
        let c1 := c.withParent (some g.cache)
        match g.ret with
        | .error e => ⟨.error e, c1, g.world⟩
        | .ok v =>
          if pyTruthy v then ⟨.error .attributeError, c1, g.world⟩
          else engineStep S n (.eload c1 key) g.world
      | none => engineStep S n (.eload c key) w
  | n + 1, .eload c key, w =>
    match Item.loadFromKey S key w with
    | (.error e, w1) => ⟨.error e, c, w1⟩
    | (.ok none, w1) => ⟨.ok none, c, w1⟩
    | (.ok (some it), w1) =>
      let r := engineStep S n (.eadd it c) w1
      match r.ret with
      | .error e => ⟨.error e, r.cache, r.world⟩
      | .ok _ =>
        match r.cache.findItem key with
        | some it2 =>
          let q := Item.restoreOp S it2 key r.world
          ⟨q.1, r.cache.withItems (setFirstByKey key q.2.1 r.cache.item_list), q.2.2⟩
        | none =>
          let q := Item.restoreOp S (Item.init : Item ρ) key r.world
          ⟨q.1, r.cache, q.2.2⟩
  | n + 1, .eput c key value, w =>
    match (match c.parent_cache with
           | none => (Except.ok (), c, w)
           | some p =>
             let r := remove_value S p w key
             (r.ret, c.withParent (some r.cache), r.world)) with
    | (.error e, c1, w1) => ⟨.error e, c1, w1⟩
    | (.ok _, c1, w1) =>
      match (match c1.findItem key with
             | some old =>
               let c2 := (c1.withItems (removeFirstByKey key c1.item_list)).withSize
                           (c1.size - old.stored_size)
               match S.discard_value w1.store key old.stored_value with
               | .error e => (Except.error e, c2, w1)
               | .ok st => (Except.ok (), c2, { w1 with store := st })
             | none => (Except.ok (), c1, w1)) with
      | (.error e, c2, w2) => ⟨.error e, c2, w2⟩
      | (.ok _, c2, w2) =>
        match Item.storeOp S Item.init key value w2 with
        | (.error e, w3) => ⟨.error e, c2, w3⟩
        | (.ok newIt, w3) => engineStep S n (.eadd newIt c2) w3
  | n + 1, .eadd it c, w =>
    let c1 := c.withItems (c.item_list ++ [it])
    if c1.size + it.stored_size > c1.max_size then
      let r := engineStep S n (.etrim c1 it.stored_size) w
      match r.ret with
      | .error e => ⟨.error e, r.cache, r.world⟩
      | .ok _ => ⟨.ok none, r.cache.withSize (r.cache.size + it.stored_size), r.world⟩
    else
      ⟨.ok none, c1.withSize (c1.size + it.stored_size), w⟩
  | n + 1, .etrim c extra_size, w =>
    let sorted := c.item_list.insertionSort (fun a b => c.policy a ≤ c.policy b)
    let c1 := c.withItems sorted
    engineStep S n (.eevict (trimSelect c1.max_size extra_size c1.size sorted) c1) w
  | _ + 1, .eevict [] c, w => ⟨.ok none, c, w⟩
  | n + 1, .eevict (k :: rest) c, w =>
    match c.parent_cache with
    | some _ =>
      let g := engineStep S n (.eget c k) w
      match g.ret with
      | .error e => ⟨.error e, g.cache, g.world⟩
      | .ok v =>
        let r := remove_value S g.cache g.world k
        match r.ret with
        | .error e => ⟨.error e, r.cache, r.world⟩
        | .ok _ =>
          if pyTruthy v then
            match r.cache.parent_cache with
            | some p =>
              let q := engineStep S n (.eput p k v) r.world
              match q.ret with
              | .error e => ⟨.error e, r.cache.withParent (some q.cache), q.world⟩
              | .ok _ => engineStep S n (.eevict rest (r.cache.withParent (some q.cache))) q.world
            | none => engineStep S n (.eevict rest r.cache) r.world
          else engineStep S n (.eevict rest r.cache) r.world
    | none =>
      let r := remove_value S c w k
      match r.ret with
      | .error e => ⟨.error e, r.cache, r.world⟩
      | .ok _ => engineStep S n (.eevict rest r.cache) r.world
  | n + 1, .eclear clear_parent c, w =>
    match (match c.parent_cache, clear_parent with
           | some p, true =>
             let r := engineStep S n (.eclear true p) w
             (r.ret, c.withParent (some r.cache), r.world)
           | _, _ => (Except.ok none, c, w)) with
    | (.error e, c1, w1) => ⟨.error e, c1, w1⟩
    | (.ok _, c1, w1) =>
      engineStep S n (.eloop (c1.item_list.map (·.key)) clear_parent c1) w1
  | _ + 1, .eloop [] _ c, w => ⟨.ok none, c, w⟩
  | n + 1, .eloop (k :: rest) cp c, w =>
    match (match c.parent_cache, cp with
           | some _, false =>
             let g := engineStep S n (.eget c k) w
             match g.ret with
             | .error e => (Except.error e, g.cache, g.world)
             | .ok v =>
               if pyTruthy v then
                 match g.cache.parent_cache with
                 | some p =>
                   let q := engineStep S n (.eput p k v) g.world
                   (q.ret, g.cache.withParent (some q.cache), q.world)
                 | none => (Except.ok none, g.cache, g.world)
               else (Except.ok none, g.cache, g.world)
           | _, _ => (Except.ok none, c, w)) with
    | (.error e, c1, w1) => ⟨.error e, c1, w1⟩
    | (.ok _, c1, w1) =>
      let r := remove_value S c1 w1 k
      match r.ret with
      | .error e => ⟨.error e, r.cache, r.world⟩
      | .ok _ => engineStep S n (.eloop rest cp r.cache) r.world

/-- `Cache.get_value`: (a) resident hit (restore from this tier's store,
bumping the aliased item's access statistics); (b) parent lookup — the
source then calls `.restore(...)` on the value the parent's `get_value`
returned, which raises `AttributeError` whenever that value is truthy,
and falls through to (c) when it is falsy; (c) `Item.load_from_key` on
this tier's own store, inserting a fresh item via `_add_item` on
success. -/
def get_value {σ ρ : Type} (S : CacheStore σ ρ) (fuel : Nat) (c : Cache ρ)
    (w : World σ) (key : String) : Res (Option PyValue) ρ σ :=
  engineStep S fuel (.eget c key) w

/-- The `if not restored:` tail of `Cache.get_value`: try
`Cache.Item.load_from_key`; on success `_add_item` the fresh item (which
may trim, possibly evicting and resetting that very item — the final
`item.restore` then runs against the reset item, whose `stored_value` is
`None`). -/
def get_load {σ ρ : Type} (S : CacheStore σ ρ) (fuel : Nat) (c : Cache ρ)
    (w : World σ) (key : String) : Res (Option PyValue) ρ σ :=
  engineStep S fuel (.eload c key) w

/-- `Cache.put_value`: remove the key from the parent tier, discard any
resident item for the key (`_remove_item` then `Item.discard`), store the
new value and `_add_item` it. -/
def put_value {σ ρ : Type} (S : CacheStore σ ρ) (fuel : Nat) (c : Cache ρ)
    (w : World σ) (key : String) (value : Option PyValue) : Res (Option PyValue) ρ σ :=
  engineStep S fuel (.eput c key value) w

/-- `Cache._add_item`: append the item to the index and list, trim when
the new total would exceed `max_size`, then add the item's size.  When
the trim raises, the exception propagates before `self._size` is
updated, exactly as in the source. -/
def add_item {σ ρ : Type} (S : CacheStore σ ρ) (fuel : Nat) (it : Item ρ)
    (c : Cache ρ) (w : World σ) : Res (Option PyValue) ρ σ :=
  engineStep S fuel (.eadd it c) w

/-- `Cache.trim`: sort the item list in place by ascending policy score,
scan it for eviction candidates (`trimSelect`), then process the marked
keys in that order. -/
def trim {σ ρ : Type} (S : CacheStore σ ρ) (fuel : Nat) (c : Cache ρ)
    (w : World σ) (extra_size : ℚ) : Res (Option PyValue) ρ σ :=
  engineStep S fuel (.etrim c extra_size) w

/-- The eviction loop of `Cache.trim`: with a parent tier, read the value
out of this tier, remove the key, and (only when the value is truthy)
put it into the parent ("demotion"); without a parent, just remove. -/
def trim_evict {σ ρ : Type} (S : CacheStore σ ρ) (fuel : Nat) (ks : List String)
    (c : Cache ρ) (w : World σ) : Res (Option PyValue) ρ σ :=
  engineStep S fuel (.eevict ks c) w

/-- `Cache.clear`: with `clear_parent` set, clear the parent first; then
process every resident key (`clear_loop`). -/
def clear {σ ρ : Type} (S : CacheStore σ ρ) (fuel : Nat) (clear_parent : Bool)
    (c : Cache ρ) (w : World σ) : Res (Option PyValue) ρ σ :=
  engineStep S fuel (.eclear clear_parent c) w

/-- The per-key loop of `Cache.clear`: with a parent tier and
`clear_parent` unset, read the value and (when truthy) push it into the
parent, then `remove_value` the key (which itself removes from the
parent tier first). -/
def clear_loop {σ ρ : Type} (S : CacheStore σ ρ) (fuel : Nat) (ks : List String)
    (clear_parent : Bool) (c : Cache ρ) (w : World σ) : Res (Option PyValue) ρ σ :=
  engineStep S fuel (.eloop ks clear_parent c) w

namespace Cache

variable {ρ : Type}

/-- Length of the parent chain (used as an induction measure). -/
def depth : Cache ρ → Nat
  | .mk _ _ _ none _ _ _ => 0
  | .mk _ _ _ (some p) _ _ _ => p.depth + 1

/-- The bookkeeping discrepancy of one tier: `_size` minus the sum of
`stored_size` over the resident items. -/
def delta (c : Cache ρ) : ℚ := c.size - sumSizes c.item_list

/-- The size invariant of a tier and all its ancestors:
`_size` equals the sum of `stored_size` over `_item_dict`. -/
def sizeInvAll : Cache ρ → Bool
  | .mk _ _ _ parent sz _ items =>
    (sz == sumSizes items) &&
      (match parent with
       | none => true
       | some p => sizeInvAll p)

/-- The size invariant of all strict ancestors. -/
def parentInv (c : Cache ρ) : Bool :=
  match c.parent_cache with
  | none => true
  | some p => sizeInvAll p

/-- Keys of this tier's resident items are pairwise distinct, in every
tier of the chain. -/
def nodupKeysAll : Cache ρ → Bool
  | .mk _ _ _ parent _ _ items =>
    decide (items.map (·.key)).Nodup &&
      (match parent with
       | none => true
       | some p => nodupKeysAll p)

/-- The key is resident in no tier of the chain. -/
def keyAbsentAll (k : String) : Cache ρ → Bool
  | .mk _ _ _ parent _ _ items =>
    (items.find? (fun it => it.key = k)).isNone &&
      (match parent with
       | none => true
       | some p => keyAbsentAll k p)

@[simp] theorem nodupKeysAll_mk (cap th : ℚ) (pol : Item ρ → ℚ) (pc : Option (Cache ρ))
    (sz mx : ℚ) (l : List (Item ρ)) :
    nodupKeysAll (Cache.mk cap th pol pc sz mx l) =
      (decide (l.map (·.key)).Nodup &&
        (match pc with
         | none => true
         | some p => nodupKeysAll p)) := by
  rw [nodupKeysAll.eq_def]

@[simp] theorem keyAbsentAll_mk (k : String) (cap th : ℚ) (pol : Item ρ → ℚ)
    (pc : Option (Cache ρ)) (sz mx : ℚ) (l : List (Item ρ)) :
    keyAbsentAll k (Cache.mk cap th pol pc sz mx l) =
      ((l.find? (fun it => it.key = k)).isNone &&
        (match pc with
         | none => true
         | some p => keyAbsentAll k p)) := by
  rw [keyAbsentAll.eq_def]

@[simp] theorem capacity_mk (cap th : ℚ) (pol : Item ρ → ℚ) (pc : Option (Cache ρ))
    (sz mx : ℚ) (l : List (Item ρ)) : (Cache.mk cap th pol pc sz mx l).capacity = cap := rfl

@[simp] theorem threshold_mk (cap th : ℚ) (pol : Item ρ → ℚ) (pc : Option (Cache ρ))
    (sz mx : ℚ) (l : List (Item ρ)) : (Cache.mk cap th pol pc sz mx l).threshold = th := rfl

@[simp] theorem policy_mk (cap th : ℚ) (pol : Item ρ → ℚ) (pc : Option (Cache ρ))
    (sz mx : ℚ) (l : List (Item ρ)) : (Cache.mk cap th pol pc sz mx l).policy = pol := rfl

@[simp] theorem parent_mk (cap th : ℚ) (pol : Item ρ → ℚ) (pc : Option (Cache ρ))
    (sz mx : ℚ) (l : List (Item ρ)) : (Cache.mk cap th pol pc sz mx l).parent_cache = pc := rfl

@[simp] theorem size_mk (cap th : ℚ) (pol : Item ρ → ℚ) (pc : Option (Cache ρ))
    (sz mx : ℚ) (l : List (Item ρ)) : (Cache.mk cap th pol pc sz mx l).size = sz := rfl

@[simp] theorem max_size_mk (cap th : ℚ) (pol : Item ρ → ℚ) (pc : Option (Cache ρ))
    (sz mx : ℚ) (l : List (Item ρ)) : (Cache.mk cap th pol pc sz mx l).max_size = mx := rfl

@[simp] theorem item_list_mk (cap th : ℚ) (pol : Item ρ → ℚ) (pc : Option (Cache ρ))
    (sz mx : ℚ) (l : List (Item ρ)) : (Cache.mk cap th pol pc sz mx l).item_list = l := rfl

@[simp] theorem withItems_mk (cap th : ℚ) (pol : Item ρ → ℚ) (pc : Option (Cache ρ))
    (sz mx : ℚ) (l l' : List (Item ρ)) :
    (Cache.mk cap th pol pc sz mx l).withItems l' = .mk cap th pol pc sz mx l' := rfl

@[simp] theorem withSize_mk (cap th : ℚ) (pol : Item ρ → ℚ) (pc : Option (Cache ρ))
    (sz mx s' : ℚ) (l : List (Item ρ)) :
    (Cache.mk cap th pol pc sz mx l).withSize s' = .mk cap th pol pc s' mx l := rfl

@[simp] theorem withParent_mk (cap th : ℚ) (pol : Item ρ → ℚ) (pc pc' : Option (Cache ρ))
    (sz mx : ℚ) (l : List (Item ρ)) :
    (Cache.mk cap th pol pc sz mx l).withParent pc' = .mk cap th pol pc' sz mx l := rfl

@[simp] theorem findItem_mk (cap th : ℚ) (pol : Item ρ → ℚ) (pc : Option (Cache ρ))
    (sz mx : ℚ) (l : List (Item ρ)) (k : String) :
    (Cache.mk cap th pol pc sz mx l).findItem k = l.find? (fun it => it.key = k) := rfl

@[simp] theorem sizeInvAll_mk (cap th : ℚ) (pol : Item ρ → ℚ) (pc : Option (Cache ρ))
    (sz mx : ℚ) (l : List (Item ρ)) :
    sizeInvAll (Cache.mk cap th pol pc sz mx l) =
      ((sz == sumSizes l) &&
        (match pc with
         | none => true
         | some p => sizeInvAll p)) := by
  rw [sizeInvAll.eq_def]

@[simp] theorem delta_mk (cap th : ℚ) (pol : Item ρ → ℚ) (pc : Option (Cache ρ))
    (sz mx : ℚ) (l : List (Item ρ)) :
    delta (Cache.mk cap th pol pc sz mx l) = sz - sumSizes l := rfl

@[simp] theorem parentInv_mk (cap th : ℚ) (pol : Item ρ → ℚ) (pc : Option (Cache ρ))
    (sz mx : ℚ) (l : List (Item ρ)) :
    parentInv (Cache.mk cap th pol pc sz mx l) =
      (match pc with
       | none => true
       | some p => sizeInvAll p) := rfl

@[simp] theorem parentInv_withItems (c : Cache ρ) (l : List (Item ρ)) :
    parentInv (c.withItems l) = parentInv c := by
  obtain ⟨cap, th, pol, pc, sz, mx, l0⟩ := c; rfl

@[simp] theorem parentInv_withSize (c : Cache ρ) (s : ℚ) :
    parentInv (c.withSize s) = parentInv c := by
  obtain ⟨cap, th, pol, pc, sz, mx, l0⟩ := c; rfl

@[simp] theorem delta_withItems (c : Cache ρ) (l : List (Item ρ)) :
    delta (c.withItems l) = c.size - sumSizes l := by
  obtain ⟨cap, th, pol, pc, sz, mx, l0⟩ := c; rfl

@[simp] theorem delta_withParent (c : Cache ρ) (pc' : Option (Cache ρ)) :
    delta (c.withParent pc') = delta c := by
  obtain ⟨cap, th, pol, pc, sz, mx, l0⟩ := c; rfl

@[simp] theorem parentInv_withParent_some (c : Cache ρ) (p : Cache ρ) :
    parentInv (c.withParent (some p)) = sizeInvAll p := by
  obtain ⟨cap, th, pol, pc, sz, mx, l0⟩ := c; rfl

theorem sizeInvAll_eq_delta (c : Cache ρ) :
    sizeInvAll c = ((delta c == 0) && parentInv c) := by
  obtain ⟨cap, th, pol, pc, sz, mx, l⟩ := c
  rw [sizeInvAll_mk, delta_mk, parentInv_mk]
  congr 1
  by_cases h : sz = sumSizes l
  · simp [h]
  · simp [h, sub_eq_zero]

theorem sizeInvAll_of_delta_parentInv {c : Cache ρ} (h1 : delta c = 0)
    (h2 : parentInv c = true) : sizeInvAll c = true := by
  rw [sizeInvAll_eq_delta, h1, h2]; simp

theorem delta_eq_zero_of_sizeInvAll {c : Cache ρ} (h : sizeInvAll c = true) :
    delta c = 0 := by
  rw [sizeInvAll_eq_delta] at h
  exact beq_iff_eq.mp (Bool.and_elim_left h)

theorem parentInv_of_sizeInvAll {c : Cache ρ} (h : sizeInvAll c = true) :
    parentInv c = true := by
  rw [sizeInvAll_eq_delta] at h
  exact Bool.and_elim_right h

theorem sizeInvAll_parent {c p : Cache ρ} (h : sizeInvAll c = true)
    (hp : c.parent_cache = some p) : sizeInvAll p = true := by
  have := parentInv_of_sizeInvAll h
  rw [parentInv, hp] at this
  exact this

end Cache

@[simp] theorem sumSizes_nil {ρ : Type} : sumSizes ([] : List (Item ρ)) = 0 := rfl

@[simp] theorem sumSizes_cons {ρ : Type} (it : Item ρ) (l : List (Item ρ)) :
    sumSizes (it :: l) = it.stored_size + sumSizes l := rfl

@[simp] theorem sumSizes_append {ρ : Type} (l1 l2 : List (Item ρ)) :
    sumSizes (l1 ++ l2) = sumSizes l1 + sumSizes l2 := by
  induction l1 with
  | nil => simp
  | cons it l ih => simp [ih]; ring

theorem sumSizes_perm {ρ : Type} {l1 l2 : List (Item ρ)} (h : l1.Perm l2) :
    sumSizes l1 = sumSizes l2 :=
  List.Perm.sum_eq (h.map (·.stored_size))

theorem sumSizes_removeFirstByKey {ρ : Type} {l : List (Item ρ)} {k : String}
    {it : Item ρ} (h : l.find? (fun i => i.key = k) = some it) :
    sumSizes (removeFirstByKey k l) = sumSizes l - it.stored_size := by
  induction l with
  | nil => simp at h
  | cons hd tl ih =>
    by_cases hk : hd.key = k
    · rw [List.find?_cons_of_pos _ (by simpa using hk)] at h
      cases h
      simp [removeFirstByKey, hk]
    · rw [List.find?_cons_of_neg _ (by simpa using hk)] at h
      simp [removeFirstByKey, hk, ih h]
      ring

theorem sumSizes_setFirstByKey {ρ : Type} {l : List (Item ρ)} {k : String}
    {it it' : Item ρ} (h : l.find? (fun i => i.key = k) = some it)
    (hsz : it'.stored_size = it.stored_size) :
    sumSizes (setFirstByKey k it' l) = sumSizes l := by
  induction l with
  | nil => simp at h
  | cons hd tl ih =>
    by_cases hk : hd.key = k
    · rw [List.find?_cons_of_pos _ (by simpa using hk)] at h
      cases h
      simp [setFirstByKey, hk, hsz]
    · rw [List.find?_cons_of_neg _ (by simpa using hk)] at h
      simp [setFirstByKey, hk, ih h]

@[simp] theorem delta_withSize {ρ : Type} (c : Cache ρ) (s : ℚ) :
    Cache.delta (c.withSize s) = s - sumSizes c.item_list := by
  obtain ⟨cap, th, pol, pc, sz, mx, l⟩ := c; rfl

@[simp] theorem item_list_withSize {ρ : Type} (c : Cache ρ) (s : ℚ) :
    (c.withSize s).item_list = c.item_list := by
  obtain ⟨cap, th, pol, pc, sz, mx, l⟩ := c; rfl

@[simp] theorem size_withSize {ρ : Type} (c : Cache ρ) (s : ℚ) :
    (c.withSize s).size = s := by
  obtain ⟨cap, th, pol, pc, sz, mx, l⟩ := c; rfl

@[simp] theorem max_size_withSize {ρ : Type} (c : Cache ρ) (s : ℚ) :
    (c.withSize s).max_size = c.max_size := by
  obtain ⟨cap, th, pol, pc, sz, mx, l⟩ := c; rfl

@[simp] theorem max_size_withParent {ρ : Type} (c : Cache ρ) (pc' : Option (Cache ρ)) :
    (c.withParent pc').max_size = c.max_size := by
  obtain ⟨cap, th, pol, pc, sz, mx, l⟩ := c; rfl

@[simp] theorem item_list_withItems {ρ : Type} (c : Cache ρ) (l : List (Item ρ)) :
    (c.withItems l).item_list = l := by
  obtain ⟨cap, th, pol, pc, sz, mx, l0⟩ := c; rfl

@[simp] theorem size_withItems {ρ : Type} (c : Cache ρ) (l : List (Item ρ)) :
    (c.withItems l).size = c.size := by
  obtain ⟨cap, th, pol, pc, sz, mx, l0⟩ := c; rfl

@[simp] theorem max_size_withItems {ρ : Type} (c : Cache ρ) (l : List (Item ρ)) :
    (c.withItems l).max_size = c.max_size := by
  obtain ⟨cap, th, pol, pc, sz, mx, l0⟩ := c; rfl

@[simp] theorem policy_withItems {ρ : Type} (c : Cache ρ) (l : List (Item ρ)) :
    (c.withItems l).policy = c.policy := by
  obtain ⟨cap, th, pol, pc, sz, mx, l0⟩ := c; rfl

@[simp] theorem parent_withItems {ρ : Type} (c : Cache ρ) (l : List (Item ρ)) :
    (c.withItems l).parent_cache = c.parent_cache := by
  obtain ⟨cap, th, pol, pc, sz, mx, l0⟩ := c; rfl

@[simp] theorem parent_withSize {ρ : Type} (c : Cache ρ) (s : ℚ) :
    (c.withSize s).parent_cache = c.parent_cache := by
  obtain ⟨cap, th, pol, pc, sz, mx, l0⟩ := c; rfl

@[simp] theorem parent_withParent {ρ : Type} (c : Cache ρ) (pc' : Option (Cache ρ)) :
    (c.withParent pc').parent_cache = pc' := by
  obtain ⟨cap, th, pol, pc, sz, mx, l0⟩ := c; rfl

@[simp] theorem size_withParent {ρ : Type} (c : Cache ρ) (pc' : Option (Cache ρ)) :
    (c.withParent pc').size = c.size := by
  obtain ⟨cap, th, pol, pc, sz, mx, l0⟩ := c; rfl

@[simp] theorem item_list_withParent {ρ : Type} (c : Cache ρ) (pc' : Option (Cache ρ)) :
    (c.withParent pc').item_list = c.item_list := by
  obtain ⟨cap, th, pol, pc, sz, mx, l0⟩ := c; rfl

/-- The item object after `Item.restore` (whether or not the store
raised): only the access statistics changed. -/
theorem restoreOp_item {σ ρ : Type} (S : CacheStore σ ρ) (it : Item ρ)
    (k : String) (w : World σ) :
    (Item.restoreOp S it k w).2.1 =
      { it with access_time := w.clock, access_count := it.access_count + 1 } := by
  unfold Item.restoreOp Item.access
  cases h : S.restore_value ({ w with clock := w.clock + 1 } : World σ).store k it.stored_value with
  | error e => simp [h]
  | ok p => simp [h]

theorem restoreOp_item_stored_size {σ ρ : Type} (S : CacheStore σ ρ) (it : Item ρ)
    (k : String) (w : World σ) :
    (Item.restoreOp S it k w).2.1.stored_size = it.stored_size := by
  rw [restoreOp_item]

theorem restoreOp_item_key {σ ρ : Type} (S : CacheStore σ ρ) (it : Item ρ)
    (k : String) (w : World σ) :
    (Item.restoreOp S it k w).2.1.key = it.key := by
  rw [restoreOp_item]

/-- No-parent case of `remove_value_preserves`. -/
theorem remove_value_preserves_base {σ ρ : Type} (S : CacheStore σ ρ)
    (cap th : ℚ) (pol : Item ρ → ℚ) (sz mx : ℚ) (l : List (Item ρ))
    (w : World σ) (k : String) :
    Cache.delta (remove_value S (.mk cap th pol none sz mx l) w k).cache =
      Cache.delta (Cache.mk cap th pol none sz mx l) ∧
    (Cache.sizeInvAll (Cache.mk cap th pol none sz mx l) = true →
      Cache.sizeInvAll (remove_value S (.mk cap th pol none sz mx l) w k).cache = true) := by
  rw [remove_value]
  cases hf : l.find? (fun it => it.key = k) with
  | none => simp [hf]
  | some item =>
    simp only [Cache.findItem_mk, hf]
    have hdelta :
        sz - item.stored_size - sumSizes (removeFirstByKey k l) = sz - sumSizes l := by
      rw [sumSizes_removeFirstByKey hf]; ring
    cases hdc : S.discard_value w.store k item.stored_value with
    | error e =>
      simp [hdc, Cache.delta, hdelta, Cache.sizeInvAll_eq_delta]
    | ok st =>
      simp [hdc, Cache.delta, hdelta, Cache.sizeInvAll_eq_delta]

/-- `remove_value` never perturbs the size bookkeeping of any tier:
the tier's `delta` is unchanged and the chain-wide size invariant is
preserved, whether or not the call raises. -/
theorem remove_value_preserves {σ ρ : Type} (S : CacheStore σ ρ) :
    ∀ (n : Nat) (c : Cache ρ), c.depth ≤ n → ∀ (w : World σ) (k : String),
      Cache.delta (remove_value S c w k).cache = Cache.delta c ∧
      (Cache.sizeInvAll c = true → Cache.sizeInvAll (remove_value S c w k).cache = true) := by
  intro n
  induction n with
  | zero =>
    intro c hd w k
    obtain ⟨cap, th, pol, pc, sz, mx, l⟩ := c
    match pc with
    | some p => simp [Cache.depth] at hd
    | none => exact remove_value_preserves_base S cap th pol sz mx l w k
  | succ n ih =>
    intro c hd w k
    obtain ⟨cap, th, pol, pc, sz, mx, l⟩ := c
    match pc with
    | none => exact remove_value_preserves_base S cap th pol sz mx l w k
    | some p =>
      have hdp : p.depth ≤ n := by
        simp only [Cache.depth] at hd; omega
      rw [remove_value]
      have hih := ih p hdp w k
      cases hr : (remove_value S p w k).ret with
      | error e =>
        simp only [hr]
        refine ⟨by simp [Cache.delta], ?_⟩
        intro hinv
        have hp := Cache.sizeInvAll_parent hinv rfl
        have hd0 := Cache.delta_eq_zero_of_sizeInvAll hinv
        simp only [Cache.delta_mk] at hd0
        exact Cache.sizeInvAll_of_delta_parentInv (by simp [hd0]) (by simp [hih.2 hp])
      | ok u =>
        simp only [hr]
        cases hf : l.find? (fun it => it.key = k) with
        | none =>
          simp only [Cache.findItem_mk, hf]
          refine ⟨by simp [Cache.delta], ?_⟩
          intro hinv
          have hp := Cache.sizeInvAll_parent hinv rfl
          have hd0 := Cache.delta_eq_zero_of_sizeInvAll hinv
          simp only [Cache.delta_mk] at hd0
          exact Cache.sizeInvAll_of_delta_parentInv (by simp [hd0]) (by simp [hih.2 hp])
        | some item =>
          simp only [Cache.findItem_mk, hf]
          have hdelta :
              sz - item.stored_size - sumSizes (removeFirstByKey k l) = sz - sumSizes l := by
            rw [sumSizes_removeFirstByKey hf]; ring
          cases hdc : S.discard_value (remove_value S p w k).world.store k item.stored_value with
          | error e2 =>
            simp only [hdc]
            refine ⟨by simp [Cache.delta, hdelta], ?_⟩
            intro hinv
            have hp := Cache.sizeInvAll_parent hinv rfl
            have hd0 := Cache.delta_eq_zero_of_sizeInvAll hinv
            simp only [Cache.delta_mk] at hd0
            exact Cache.sizeInvAll_of_delta_parentInv
              (by simp [Cache.delta, hdelta, hd0]) (by simp [hih.2 hp])
          | ok st =>
            simp only [hdc]
            refine ⟨by simp [Cache.delta, hdelta], ?_⟩
            intro hinv
            have hp := Cache.sizeInvAll_parent hinv rfl
            have hd0 := Cache.delta_eq_zero_of_sizeInvAll hinv
            simp only [Cache.delta_mk] at hd0
            exact Cache.sizeInvAll_of_delta_parentInv
              (by simp [Cache.delta, hdelta, hd0]) (by simp [hih.2 hp])

/-- The cache returned by `remove_value` keeps the configuration fields
and maps the parent through the recursive removal. -/
theorem remove_value_shape {σ ρ : Type} (S : CacheStore σ ρ)
    (cap th : ℚ) (pol : Item ρ → ℚ) (pc : Option (Cache ρ)) (sz mx : ℚ)
    (l : List (Item ρ)) (w : World σ) (k : String) :
    ∃ sz' l', (remove_value S (.mk cap th pol pc sz mx l) w k).cache =
      .mk cap th pol (pc.map (fun p => (remove_value S p w k).cache)) sz' mx l' := by
  cases pc with
  | none =>
    rw [remove_value]
    cases hf : l.find? (fun it => it.key = k) with
    | none => exact ⟨sz, l, by simp [hf]⟩
    | some item =>
      simp only [Cache.findItem_mk, hf]
      cases hdc : S.discard_value w.store k item.stored_value with
      | error e => exact ⟨sz - item.stored_size, removeFirstByKey k l, by simp [hdc]⟩
      | ok st => exact ⟨sz - item.stored_size, removeFirstByKey k l, by simp [hdc]⟩
  | some p =>
    rw [remove_value]
    cases hr : (remove_value S p w k).ret with
    | error e => exact ⟨sz, l, by simp [hr]⟩
    | ok u =>
      simp only [hr]
      cases hf : l.find? (fun it => it.key = k) with
      | none => exact ⟨sz, l, by simp [hf]⟩
      | some item =>
        simp only [Cache.findItem_mk, hf]
        cases hdc : S.discard_value (remove_value S p w k).world.store k item.stored_value with
        | error e => exact ⟨sz - item.stored_size, removeFirstByKey k l, by simp [hdc]⟩
        | ok st => exact ⟨sz - item.stored_size, removeFirstByKey k l, by simp [hdc]⟩

/-- `remove_value` preserves this tier's `delta` and the invariant of the
ancestor tiers, unconditionally. -/
theorem remove_value_pres2 {σ ρ : Type} (S : CacheStore σ ρ) (c : Cache ρ)
    (w : World σ) (k : String) :
    Cache.delta (remove_value S c w k).cache = Cache.delta c ∧
    (Cache.parentInv c = true → Cache.parentInv (remove_value S c w k).cache = true) := by
  refine ⟨(remove_value_preserves S c.depth c le_rfl w k).1, ?_⟩
  intro hpinv
  obtain ⟨cap, th, pol, pc, sz, mx, l⟩ := c
  obtain ⟨sz', l', hshape⟩ := remove_value_shape S cap th pol pc sz mx l w k
  rw [hshape]
  cases pc with
  | none => rfl
  | some p =>
    simp only [Cache.parentInv_mk] at hpinv
    show Cache.sizeInvAll (remove_value S p w k).cache = true
    exact (remove_value_preserves S p.depth p le_rfl w k).2 hpinv

/-- Under unique keys, removing the (first) item with a key leaves no
item with that key. -/
theorem find?_removeFirstByKey_eq_none {ρ : Type} {l : List (Item ρ)} {k : String}
    (h : (l.map (·.key)).Nodup) :
    (removeFirstByKey k l).find? (fun it => it.key = k) = none := by
  induction l with
  | nil => rfl
  | cons it rest ih =>
    rw [List.map_cons, List.nodup_cons] at h
    by_cases hk : it.key = k
    · rw [removeFirstByKey, if_pos hk]
      rw [List.find?_eq_none]
      intro x hx hkey
      exact h.1 (by
        rw [List.mem_map]
        refine ⟨x, hx, ?_⟩
        rw [hk, ← of_decide_eq_true hkey])
    · rw [removeFirstByKey, if_neg hk]
      rw [List.find?_cons_of_neg _ (by simpa using hk)]
      exact ih h.2

/-- After a `remove_value` that completes, the key is resident in no
tier of the chain (assuming the per-tier keys were unique). -/
theorem remove_value_absent {σ ρ : Type} (S : CacheStore σ ρ) :
    ∀ (n : Nat) (c : Cache ρ), c.depth ≤ n → ∀ (w : World σ) (k : String),
      Cache.nodupKeysAll c = true → (remove_value S c w k).ret = .ok () →
      Cache.keyAbsentAll k (remove_value S c w k).cache = true := by
  intro n
  induction n with
  | zero =>
    intro c hd w k hnd hok
    obtain ⟨cap, th, pol, pc, sz, mx, l⟩ := c
    match pc with
    | some p => simp [Cache.depth] at hd
    | none =>
      rw [Cache.nodupKeysAll_mk] at hnd
      have hndl : (l.map (·.key)).Nodup := of_decide_eq_true (Bool.and_elim_left hnd)
      rw [remove_value] at hok ⊢
      cases hf : l.find? (fun it => it.key = k) with
      | none => simp [hf, Option.isNone_iff_eq_none.mpr hf]
      | some item =>
        simp only [Cache.findItem_mk, hf] at hok ⊢
        cases hdc : S.discard_value w.store k item.stored_value with
        | error e => rw [hdc] at hok; simp at hok
        | ok st =>
          simp [hdc, Option.isNone_iff_eq_none.mpr (find?_removeFirstByKey_eq_none hndl)]
  | succ n ih =>
    intro c hd w k hnd hok
    obtain ⟨cap, th, pol, pc, sz, mx, l⟩ := c
    match pc with
    | none =>
      rw [Cache.nodupKeysAll_mk] at hnd
      have hndl : (l.map (·.key)).Nodup := of_decide_eq_true (Bool.and_elim_left hnd)
      rw [remove_value] at hok ⊢
      cases hf : l.find? (fun it => it.key = k) with
      | none => simp [hf, Option.isNone_iff_eq_none.mpr hf]
      | some item =>
        simp only [Cache.findItem_mk, hf] at hok ⊢
        cases hdc : S.discard_value w.store k item.stored_value with
        | error e => rw [hdc] at hok; simp at hok
        | ok st =>
          simp [hdc, Option.isNone_iff_eq_none.mpr (find?_removeFirstByKey_eq_none hndl)]
    | some p =>
      have hdp : p.depth ≤ n := by simp only [Cache.depth] at hd; omega
      rw [Cache.nodupKeysAll_mk] at hnd
      have hndl : (l.map (·.key)).Nodup := of_decide_eq_true (Bool.and_elim_left hnd)
      have hndp : Cache.nodupKeysAll p = true := Bool.and_elim_right hnd
      rw [remove_value] at hok ⊢
      cases hr : (remove_value S p w k).ret with
      | error e => simp [hr] at hok
      | ok u =>
        have habs := ih p hdp w k hndp (by rw [hr])
        simp only [hr] at hok ⊢
        cases hf : l.find? (fun it => it.key = k) with
        | none =>
          simp [Cache.findItem_mk, hf, Option.isNone_iff_eq_none.mpr hf, habs]
        | some item =>
          simp only [Cache.findItem_mk, hf] at hok ⊢
          cases hdc : S.discard_value (remove_value S p w k).world.store k item.stored_value with
          | error e => rw [hdc] at hok; simp at hok
          | ok st =>
            simp [hdc, habs,
              Option.isNone_iff_eq_none.mpr (find?_removeFirstByKey_eq_none hndl)]

/-- Removing a key absent from every tier is a complete no-op: no
error, no state change, no clock movement. -/
theorem remove_value_of_absent {σ ρ : Type} (S : CacheStore σ ρ) :
    ∀ (n : Nat) (c : Cache ρ), c.depth ≤ n → ∀ (w : World σ) (k : String),
      Cache.keyAbsentAll k c = true → remove_value S c w k = ⟨.ok (), c, w⟩ := by
  intro n
  induction n with
  | zero =>
    intro c hd w k habs
    obtain ⟨cap, th, pol, pc, sz, mx, l⟩ := c
    match pc with
    | some p => simp [Cache.depth] at hd
    | none =>
      rw [Cache.keyAbsentAll_mk] at habs
      have hf : l.find? (fun it => it.key = k) = none :=
        Option.isNone_iff_eq_none.mp (Bool.and_elim_left habs)
      rw [remove_value]
      simp [Cache.findItem_mk, hf]
  | succ n ih =>
    intro c hd w k habs
    obtain ⟨cap, th, pol, pc, sz, mx, l⟩ := c
    match pc with
    | none =>
      rw [Cache.keyAbsentAll_mk] at habs
      have hf : l.find? (fun it => it.key = k) = none :=
        Option.isNone_iff_eq_none.mp (Bool.and_elim_left habs)
      rw [remove_value]
      simp [Cache.findItem_mk, hf]
    | some p =>
      have hdp : p.depth ≤ n := by simp only [Cache.depth] at hd; omega
      rw [Cache.keyAbsentAll_mk] at habs
      have hf : l.find? (fun it => it.key = k) = none :=
        Option.isNone_iff_eq_none.mp (Bool.and_elim_left habs)
      have hp := ih p hdp w k (Bool.and_elim_right habs)
      rw [remove_value]
      rw [hp]
      simp [Cache.findItem_mk, hf]

/-- An operation result preserves the size bookkeeping relative to the
engine it started from: when it completed without raising, the tier's
`delta` is intact and valid ancestors stay valid. -/
def okPres {α σ ρ : Type} (c : Cache ρ) (r : Res α ρ σ) : Prop :=
  (∃ a, r.ret = .ok a) →
    (Cache.delta r.cache = Cache.delta c ∧
     (Cache.parentInv c = true → Cache.parentInv r.cache = true))

@[simp] theorem findItem_withParent {ρ : Type} (c : Cache ρ) (pc' : Option (Cache ρ))
    (k : String) : (c.withParent pc').findItem k = c.findItem k := by
  obtain ⟨cap, th, pol, pc, sz, mx, l0⟩ := c; rfl

@[simp] theorem findItem_withSize {ρ : Type} (c : Cache ρ) (s : ℚ) (k : String) :
    (c.withSize s).findItem k = c.findItem k := by
  obtain ⟨cap, th, pol, pc, sz, mx, l0⟩ := c; rfl

@[simp] theorem findItem_withItems {ρ : Type} (c : Cache ρ) (l : List (Item ρ))
    (k : String) : (c.withItems l).findItem k = l.find? (fun it => it.key = k) := by
  obtain ⟨cap, th, pol, pc, sz, mx, l0⟩ := c; rfl

theorem parentInv_eq_of_parent_some {ρ : Type} {c p : Cache ρ}
    (hp : c.parent_cache = some p) : Cache.parentInv c = Cache.sizeInvAll p := by
  unfold Cache.parentInv; rw [hp]

theorem parentInv_eq_of_parent_none {ρ : Type} {c : Cache ρ}
    (hp : c.parent_cache = none) : Cache.parentInv c = true := by
  unfold Cache.parentInv; rw [hp]

/-- Transfer the full size invariant across an operation that satisfies
`okPres` and returned without raising. -/
theorem okPres_sizeInvAll {α σ ρ : Type} {c : Cache ρ} {r : Res α ρ σ}
    (h : okPres c r) (hex : ∃ a, r.ret = .ok a)
    (hinv : Cache.sizeInvAll c = true) : Cache.sizeInvAll r.cache = true :=
  Cache.sizeInvAll_of_delta_parentInv
    (by rw [(h hex).1]; exact Cache.delta_eq_zero_of_sizeInvAll hinv)
    ((h hex).2 (Cache.parentInv_of_sizeInvAll hinv))

section StepEquations

variable {σ ρ : Type} (S : CacheStore σ ρ)

theorem get_value_succ_hit {c : Cache ρ} {k : String} {it : Item ρ} (n : Nat)
    (w : World σ) (hf : c.findItem k = some it) :
    get_value S (n + 1) c w k =
      ⟨(Item.restoreOp S it k w).1,
       c.withItems (setFirstByKey k (Item.restoreOp S it k w).2.1 c.item_list),
       (Item.restoreOp S it k w).2.2⟩ := by
  unfold get_value
  rw [engineStep]
  rw [hf]

theorem get_value_succ_parent_error {c p : Cache ρ} {k : String} {e : Err} (n : Nat)
    (w : World σ) (hf : c.findItem k = none) (hp : c.parent_cache = some p)
    (hg : (get_value S n p w k).ret = .error e) :
    get_value S (n + 1) c w k =
      ⟨.error e, c.withParent (some (get_value S n p w k).cache),
       (get_value S n p w k).world⟩ := by
  unfold get_value at hg ⊢
  rw [engineStep]
  rw [hf, hp]
  simp only [hg]

theorem get_value_succ_parent_truthy {c p : Cache ρ} {k : String}
    {v : Option PyValue} (n : Nat) (w : World σ)
    (hf : c.findItem k = none) (hp : c.parent_cache = some p)
    (hg : (get_value S n p w k).ret = .ok v) (ht : pyTruthy v = true) :
    get_value S (n + 1) c w k =
      ⟨.error .attributeError, c.withParent (some (get_value S n p w k).cache),
       (get_value S n p w k).world⟩ := by
  unfold get_value at hg ⊢
  rw [engineStep]
  rw [hf, hp]
  simp only [hg, ht, if_true]

theorem get_value_succ_parent_falsy {c p : Cache ρ} {k : String}
    {v : Option PyValue} (n : Nat) (w : World σ)
    (hf : c.findItem k = none) (hp : c.parent_cache = some p)
    (hg : (get_value S n p w k).ret = .ok v) (ht : pyTruthy v = false) :
    get_value S (n + 1) c w k =
      get_load S n (c.withParent (some (get_value S n p w k).cache))
        (get_value S n p w k).world k := by
  unfold get_value at hg ⊢
  unfold get_load
  rw [engineStep]
  rw [hf, hp]
  simp only [hg, ht, if_false, Bool.false_eq_true]

theorem get_value_succ_noparent {c : Cache ρ} {k : String} (n : Nat) (w : World σ)
    (hf : c.findItem k = none) (hp : c.parent_cache = none) :
    get_value S (n + 1) c w k = get_load S n c w k := by
  unfold get_value get_load
  rw [engineStep]
  rw [hf, hp]

theorem get_load_succ_error {k : String} {e : Err} {w1 : World σ} (n : Nat)
    (c : Cache ρ) (w : World σ)
    (hl : Item.loadFromKey S k w = ((.error e : Except Err (Option (Item ρ))), w1)) :
    get_load S (n + 1) c w k = ⟨.error e, c, w1⟩ := by
  unfold get_load
  rw [engineStep]
  rw [hl]

theorem get_load_succ_none {k : String} {w1 : World σ} (n : Nat)
    (c : Cache ρ) (w : World σ)
    (hl : Item.loadFromKey S k w = ((.ok none : Except Err (Option (Item ρ))), w1)) :
    get_load S (n + 1) c w k = ⟨.ok none, c, w1⟩ := by
  unfold get_load
  rw [engineStep]
  rw [hl]

theorem get_load_succ_some {k : String} {it : Item ρ} {w1 : World σ} (n : Nat)
    (c : Cache ρ) (w : World σ)
    (hl : Item.loadFromKey S k w = (.ok (some it), w1)) :
    get_load S (n + 1) c w k =
      (match (add_item S n it c w1).ret with
       | .error e => ⟨.error e, (add_item S n it c w1).cache, (add_item S n it c w1).world⟩
       | .ok _ =>
         match (add_item S n it c w1).cache.findItem k with
         | some it2 =>
           ⟨(Item.restoreOp S it2 k (add_item S n it c w1).world).1,
            (add_item S n it c w1).cache.withItems
              (setFirstByKey k (Item.restoreOp S it2 k (add_item S n it c w1).world).2.1
                (add_item S n it c w1).cache.item_list),
            (Item.restoreOp S it2 k (add_item S n it c w1).world).2.2⟩
         | none =>
           ⟨(Item.restoreOp S (Item.init : Item ρ) k (add_item S n it c w1).world).1,
            (add_item S n it c w1).cache,
            (Item.restoreOp S (Item.init : Item ρ) k (add_item S n it c w1).world).2.2⟩) := by
  unfold get_load add_item
  rw [engineStep]
  rw [hl]

theorem put_value_succ {k : String} (n : Nat) (c : Cache ρ) (w : World σ)
    (v : Option PyValue) :
    put_value S (n + 1) c w k v =
      (match (match c.parent_cache with
              | none => (Except.ok (), c, w)
              | some p =>
                (((remove_value S p w k).ret : Except Err Unit),
                 c.withParent (some (remove_value S p w k).cache),
                 (remove_value S p w k).world)) with
       | (.error e, c1, w1) => ⟨.error e, c1, w1⟩
       | (.ok _, c1, w1) =>
         match (match c1.findItem k with
                | some old =>
                  match S.discard_value w1.store k old.stored_value with
                  | .error e =>
                    (Except.error e,
                     (c1.withItems (removeFirstByKey k c1.item_list)).withSize
                       (c1.size - old.stored_size), w1)
                  | .ok st =>
                    (Except.ok (),
                     (c1.withItems (removeFirstByKey k c1.item_list)).withSize
                       (c1.size - old.stored_size), { w1 with store := st })
                | none => (Except.ok (), c1, w1)) with
         | (.error e, c2, w2) => ⟨.error e, c2, w2⟩
         | (.ok _, c2, w2) =>
           match Item.storeOp S Item.init k v w2 with
           | (.error e, w3) => ⟨.error e, c2, w3⟩
           | (.ok newIt, w3) => add_item S n newIt c2 w3) := by
  unfold put_value add_item
  rw [engineStep]

theorem add_item_succ_no_trim {it : Item ρ} {c : Cache ρ} (n : Nat) (w : World σ)
    (h : ¬ (c.size + it.stored_size > c.max_size)) :
    add_item S (n + 1) it c w =
      ⟨.ok none, (c.withItems (c.item_list ++ [it])).withSize (c.size + it.stored_size), w⟩ := by
  unfold add_item
  rw [engineStep]
  simp only [size_withItems, max_size_withItems]
  rw [if_neg h]

theorem add_item_succ_trim {it : Item ρ} {c : Cache ρ} (n : Nat) (w : World σ)
    (h : c.size + it.stored_size > c.max_size) :
    add_item S (n + 1) it c w =
      (match (trim S n (c.withItems (c.item_list ++ [it])) w it.stored_size).ret with
       | .error e =>
         ⟨.error e, (trim S n (c.withItems (c.item_list ++ [it])) w it.stored_size).cache,
          (trim S n (c.withItems (c.item_list ++ [it])) w it.stored_size).world⟩
       | .ok _ =>
         ⟨.ok none,
          (trim S n (c.withItems (c.item_list ++ [it])) w it.stored_size).cache.withSize
            ((trim S n (c.withItems (c.item_list ++ [it])) w it.stored_size).cache.size +
              it.stored_size),
          (trim S n (c.withItems (c.item_list ++ [it])) w it.stored_size).world⟩) := by
  unfold add_item trim
  rw [engineStep]
  simp only [size_withItems, max_size_withItems]
  rw [if_pos h]

theorem trim_succ (n : Nat) (c : Cache ρ) (w : World σ) (extra_size : ℚ) :
    trim S (n + 1) c w extra_size =
      trim_evict S n
        (trimSelect c.max_size extra_size c.size
          (c.item_list.insertionSort (fun a b => c.policy a ≤ c.policy b)))
        (c.withItems (c.item_list.insertionSort (fun a b => c.policy a ≤ c.policy b))) w := by
  unfold trim trim_evict
  rw [engineStep]
  simp only [max_size_withItems, size_withItems]

theorem trim_evict_succ_nil (n : Nat) (c : Cache ρ) (w : World σ) :
    trim_evict S (n + 1) [] c w = ⟨.ok none, c, w⟩ := by
  unfold trim_evict
  rw [engineStep]

theorem trim_evict_succ_noparent {c : Cache ρ} (n : Nat) (k : String)
    (rest : List String) (w : World σ) (hp : c.parent_cache = none) :
    trim_evict S (n + 1) (k :: rest) c w =
      (match (remove_value S c w k).ret with
       | .error e => ⟨.error e, (remove_value S c w k).cache, (remove_value S c w k).world⟩
       | .ok _ => trim_evict S n rest (remove_value S c w k).cache (remove_value S c w k).world) := by
  unfold trim_evict
  rw [engineStep]
  rw [hp]

theorem trim_evict_succ_parent {c p0 : Cache ρ} (n : Nat) (k : String)
    (rest : List String) (w : World σ) (hp : c.parent_cache = some p0) :
    trim_evict S (n + 1) (k :: rest) c w =
      (match (get_value S n c w k).ret with
       | .error e => ⟨.error e, (get_value S n c w k).cache, (get_value S n c w k).world⟩
       | .ok v =>
         match (remove_value S (get_value S n c w k).cache (get_value S n c w k).world k).ret with
         | .error e =>
           ⟨.error e,
            (remove_value S (get_value S n c w k).cache (get_value S n c w k).world k).cache,
            (remove_value S (get_value S n c w k).cache (get_value S n c w k).world k).world⟩
         | .ok _ =>
           if pyTruthy v then
             match (remove_value S (get_value S n c w k).cache (get_value S n c w k).world k).cache.parent_cache with
             | some p =>
               match (put_value S n p
                   (remove_value S (get_value S n c w k).cache (get_value S n c w k).world k).world
                   k v).ret with
               | .error e =>
                 ⟨.error e,
                  (remove_value S (get_value S n c w k).cache (get_value S n c w k).world k).cache.withParent
                    (some (put_value S n p
                      (remove_value S (get_value S n c w k).cache (get_value S n c w k).world k).world
                      k v).cache),
                  (put_value S n p
                    (remove_value S (get_value S n c w k).cache (get_value S n c w k).world k).world
                    k v).world⟩
               | .ok _ =>
                 trim_evict S n rest
                   ((remove_value S (get_value S n c w k).cache (get_value S n c w k).world k).cache.withParent
                     (some (put_value S n p
                       (remove_value S (get_value S n c w k).cache (get_value S n c w k).world k).world
                       k v).cache))
                   (put_value S n p
                     (remove_value S (get_value S n c w k).cache (get_value S n c w k).world k).world
                     k v).world
             | none =>
               trim_evict S n rest
                 (remove_value S (get_value S n c w k).cache (get_value S n c w k).world k).cache
                 (remove_value S (get_value S n c w k).cache (get_value S n c w k).world k).world
           else
             trim_evict S n rest
               (remove_value S (get_value S n c w k).cache (get_value S n c w k).world k).cache
               (remove_value S (get_value S n c w k).cache (get_value S n c w k).world k).world) := by
  unfold trim_evict get_value put_value
  simp only [engineStep, hp]

theorem clear_succ_parent_true {c p : Cache ρ} (n : Nat) (w : World σ)
    (hp : c.parent_cache = some p) :
    clear S (n + 1) true c w =
      (match (clear S n true p w).ret with
       | .error e =>
         ⟨.error e, c.withParent (some (clear S n true p w).cache), (clear S n true p w).world⟩
       | .ok _ =>
         clear_loop S n
           ((c.withParent (some (clear S n true p w).cache)).item_list.map (·.key)) true
           (c.withParent (some (clear S n true p w).cache)) (clear S n true p w).world) := by
  unfold clear clear_loop
  simp only [engineStep, hp]
  cases hr : (engineStep S n (.eclear true p) w).ret with
  | error e => simp [hr]
  | ok u => simp [hr]

theorem clear_succ_other {c : Cache ρ} (n : Nat) (b : Bool) (w : World σ)
    (h : c.parent_cache = none ∨ b = false) :
    clear S (n + 1) b c w = clear_loop S n (c.item_list.map (·.key)) b c w := by
  unfold clear clear_loop
  rw [engineStep]
  rcases h with hp | hb
  · rw [hp]; cases b <;> simp
  · subst hb
    cases hp : c.parent_cache <;> simp [hp]

theorem clear_loop_succ_nil (n : Nat) (b : Bool) (c : Cache ρ) (w : World σ) :
    clear_loop S (n + 1) [] b c w = ⟨.ok none, c, w⟩ := by
  unfold clear_loop
  rw [engineStep]

theorem clear_loop_succ_cons_other {c : Cache ρ} (n : Nat) (k : String)
    (rest : List String) (cp : Bool) (w : World σ)
    (h : c.parent_cache = none ∨ cp = true) :
    clear_loop S (n + 1) (k :: rest) cp c w =
      (match (remove_value S c w k).ret with
       | .error e => ⟨.error e, (remove_value S c w k).cache, (remove_value S c w k).world⟩
       | .ok _ =>
         clear_loop S n rest cp (remove_value S c w k).cache (remove_value S c w k).world) := by
  unfold clear_loop
  rw [engineStep]
  rcases h with hp | hb
  · rw [hp]; cases cp <;> simp
  · subst hb
    cases hp : c.parent_cache <;> simp [hp]

theorem clear_loop_succ_cons_flush {c p0 : Cache ρ} (n : Nat) (k : String)
    (rest : List String) (w : World σ) (hp : c.parent_cache = some p0) :
    clear_loop S (n + 1) (k :: rest) false c w =
      (match (match (get_value S n c w k).ret with
              | .error e =>
                (Except.error e, (get_value S n c w k).cache, (get_value S n c w k).world)
              | .ok v =>
                if pyTruthy v then
                  match (get_value S n c w k).cache.parent_cache with
                  | some p =>
                    ((put_value S n p (get_value S n c w k).world k v).ret,
                     (get_value S n c w k).cache.withParent
                       (some (put_value S n p (get_value S n c w k).world k v).cache),
                     (put_value S n p (get_value S n c w k).world k v).world)
                  | none =>
                    (Except.ok none, (get_value S n c w k).cache, (get_value S n c w k).world)
                else (Except.ok none, (get_value S n c w k).cache, (get_value S n c w k).world))
       with
       | (.error e, c1, w1) => ⟨.error e, c1, w1⟩
       | (.ok _, c1, w1) =>
         match (remove_value S c1 w1 k).ret with
         | .error e => ⟨.error e, (remove_value S c1 w1 k).cache, (remove_value S c1 w1 k).world⟩
         | .ok _ =>
           clear_loop S n rest false (remove_value S c1 w1 k).cache (remove_value S c1 w1 k).world) := by
  unfold clear_loop get_value put_value
  simp only [engineStep, hp]

end StepEquations


set_option maxHeartbeats 1000000 in
theorem ops_preserve {σ ρ : Type} (S : CacheStore σ ρ) : ∀ (n : Nat),
    (∀ (c : Cache ρ) (w : World σ) (k : String), okPres c (get_value S n c w k)) ∧
    (∀ (c : Cache ρ) (w : World σ) (k : String), okPres c (get_load S n c w k)) ∧
    (∀ (c : Cache ρ) (w : World σ) (k : String) (v : Option PyValue),
      okPres c (put_value S n c w k v)) ∧
    (∀ (it : Item ρ) (c : Cache ρ) (w : World σ), okPres c (add_item S n it c w)) ∧
    (∀ (c : Cache ρ) (w : World σ) (ex : ℚ), okPres c (trim S n c w ex)) ∧
    (∀ (ks : List String) (c : Cache ρ) (w : World σ), okPres c (trim_evict S n ks c w)) ∧
    (∀ (b : Bool) (c : Cache ρ) (w : World σ), okPres c (clear S n b c w)) ∧
    (∀ (ks : List String) (b : Bool) (c : Cache ρ) (w : World σ),
      okPres c (clear_loop S n ks b c w)) := by
  intro n
  induction n with
  | zero =>
    refine ⟨fun c w k => ?_, fun c w k => ?_, fun c w k v => ?_, fun it c w => ?_,
            fun c w ex => ?_, fun ks c w => ?_, fun b c w => ?_, fun ks b c w => ?_⟩ <;>
      · rintro ⟨a, ha⟩
        simp [get_value, get_load, put_value, add_item, trim, trim_evict, clear,
          clear_loop, engineStep] at ha
  | succ n ih =>
    obtain ⟨ihget, ihload, ihput, ihadd, ihtrim, ihevict, ihclear, ihloop⟩ := ih
    refine ⟨?_, ?_, ?_, ?_, ?_, ?_, ?_, ?_⟩
    · -- get_value
      intro c w k
      cases hf : c.findItem k with
      | some it =>
        rw [get_value_succ_hit S n w hf]
        intro _
        have hss : sumSizes (setFirstByKey k (Item.restoreOp S it k w).2.1 c.item_list)
            = sumSizes c.item_list :=
          sumSizes_setFirstByKey (by simpa [Cache.findItem] using hf)
            (restoreOp_item_stored_size S it k w)
        refine ⟨by simp [Cache.delta, hss], by intro h; simpa using h⟩
      | none =>
        cases hp : c.parent_cache with
        | none =>
          rw [get_value_succ_noparent S n w hf hp]
          exact ihload c w k
        | some p =>
          cases hg : (get_value S n p w k).ret with
          | error e =>
            rw [get_value_succ_parent_error S n w hf hp hg]
            rintro ⟨a, ha⟩; simp at ha
          | ok v =>
            cases htr : pyTruthy v with
            | true =>
              rw [get_value_succ_parent_truthy S n w hf hp hg htr]
              rintro ⟨a, ha⟩; simp at ha
            | false =>
              rw [get_value_succ_parent_falsy S n w hf hp hg htr]
              intro hok
              have hload := ihload (c.withParent (some (get_value S n p w k).cache))
                  (get_value S n p w k).world k hok
              refine ⟨by rw [hload.1]; simp, ?_⟩
              intro hpinv
              have hsp : Cache.sizeInvAll p = true := by
                rw [parentInv_eq_of_parent_some hp] at hpinv; exact hpinv
              have hnew : Cache.sizeInvAll (get_value S n p w k).cache = true :=
                okPres_sizeInvAll (ihget p w k) ⟨v, hg⟩ hsp
              exact hload.2 (by simpa using hnew)
    · -- get_load
      intro c w k
      rcases hl : Item.loadFromKey S k w with ⟨lret, w1⟩
      cases lret with
      | error e =>
        rw [get_load_succ_error S n c w hl]
        rintro ⟨a, ha⟩; simp at ha
      | ok oit =>
        cases oit with
        | none =>
          rw [get_load_succ_none S n c w hl]
          intro _
          exact ⟨rfl, fun h => h⟩
        | some it =>
          rw [get_load_succ_some S n c w hl]
          cases hr : (add_item S n it c w1).ret with
          | error e =>
            simp only [hr]
            rintro ⟨a, ha⟩; simp at ha
          | ok u =>
            simp only [hr]
            have hadd := ihadd it c w1 ⟨u, hr⟩
            cases hf2 : (add_item S n it c w1).cache.findItem k with
            | some it2 =>
              simp only [hf2]
              intro _
              have hss : sumSizes (setFirstByKey k
                    (Item.restoreOp S it2 k (add_item S n it c w1).world).2.1
                    (add_item S n it c w1).cache.item_list)
                  = sumSizes (add_item S n it c w1).cache.item_list :=
                sumSizes_setFirstByKey (by simpa [Cache.findItem] using hf2)
                  (restoreOp_item_stored_size S it2 k (add_item S n it c w1).world)
              refine ⟨?_, ?_⟩
              · show Cache.delta ((add_item S n it c w1).cache.withItems _) = Cache.delta c
                rw [Cache.delta_withItems, hss]
                exact hadd.1
              · intro h
                have := hadd.2 h
                simpa using this
            | none =>
              simp only [hf2]
              intro _
              exact ⟨hadd.1, hadd.2⟩
    · -- put_value
      intro c w k v
      rw [put_value_succ S n c w v]
      cases hp : c.parent_cache with
      | none =>
        simp only
        cases hf : c.findItem k with
        | some old =>
          simp only [hf]
          cases hdc : S.discard_value w.store k old.stored_value with
          | error e =>
            simp only [hdc]
            rintro ⟨a, ha⟩; simp at ha
          | ok st =>
            simp only [hdc]
            rcases hst : Item.storeOp S Item.init k v { w with store := st } with ⟨sret, w3⟩
            cases sret with
            | error e =>
              simp only [hst]
              rintro ⟨a, ha⟩; simp at ha
            | ok newIt =>
              simp only [hst]
              intro hok
              have hadd := ihadd newIt
                  ((c.withItems (removeFirstByKey k c.item_list)).withSize
                    (c.size - old.stored_size)) w3 hok
              refine ⟨?_, ?_⟩
              · rw [hadd.1]
                have hrm : sumSizes (removeFirstByKey k c.item_list)
                    = sumSizes c.item_list - old.stored_size :=
                  sumSizes_removeFirstByKey (by simpa [Cache.findItem] using hf)
                simp [Cache.delta, hrm]
              · intro h
                exact hadd.2 (by simpa using h)
        | none =>
          simp only [hf]
          rcases hst : Item.storeOp S Item.init k v w with ⟨sret, w3⟩
          cases sret with
          | error e =>
            simp only [hst]
            rintro ⟨a, ha⟩; simp at ha
          | ok newIt =>
            simp only [hst]
            intro hok
            exact ihadd newIt c w3 hok
      | some p =>
        simp only
        cases hr : (remove_value S p w k).ret with
        | error e =>
          simp only [hr]
          rintro ⟨a, ha⟩; simp at ha
        | ok u =>
          simp only [hr]
          cases hf : c.findItem k with
          | some old =>
            simp only [findItem_withParent, hf]
            cases hdc : S.discard_value (remove_value S p w k).world.store k old.stored_value with
            | error e =>
              simp only [hdc]
              rintro ⟨a, ha⟩; simp at ha
            | ok st =>
              simp only [hdc]
              rcases hst : Item.storeOp S Item.init k v
                  { (remove_value S p w k).world with store := st } with ⟨sret, w3⟩
              cases sret with
              | error e =>
                simp only [hst]
                rintro ⟨a, ha⟩; simp at ha
              | ok newIt =>
                simp only [hst]
                intro hok
                have hadd := ihadd newIt
                    (((c.withParent (some (remove_value S p w k).cache)).withItems
                        (removeFirstByKey k (c.withParent (some (remove_value S p w k).cache)).item_list)).withSize
                      ((c.withParent (some (remove_value S p w k).cache)).size - old.stored_size)) w3 hok
                have hrm : sumSizes (removeFirstByKey k c.item_list)
                    = sumSizes c.item_list - old.stored_size :=
                  sumSizes_removeFirstByKey (by simpa [Cache.findItem] using hf)
                refine ⟨?_, ?_⟩
                · rw [hadd.1]
                  simp [Cache.delta, hrm]
                · intro h
                  have hsp : Cache.sizeInvAll p = true := by
                    rw [parentInv_eq_of_parent_some hp] at h; exact h
                  have hnew : Cache.sizeInvAll (remove_value S p w k).cache = true :=
                    (remove_value_preserves S p.depth p le_rfl w k).2 hsp
                  exact hadd.2 (by simpa using hnew)
          | none =>
            simp only [findItem_withParent, hf]
            rcases hst : Item.storeOp S Item.init k v (remove_value S p w k).world with ⟨sret, w3⟩
            cases sret with
            | error e =>
              simp only [hst]
              rintro ⟨a, ha⟩; simp at ha
            | ok newIt =>
              simp only [hst]
              intro hok
              have hadd := ihadd newIt (c.withParent (some (remove_value S p w k).cache)) w3 hok
              refine ⟨?_, ?_⟩
              · rw [hadd.1]; simp
              · intro h
                have hsp : Cache.sizeInvAll p = true := by
                  rw [parentInv_eq_of_parent_some hp] at h; exact h
                have hnew : Cache.sizeInvAll (remove_value S p w k).cache = true :=
                  (remove_value_preserves S p.depth p le_rfl w k).2 hsp
                exact hadd.2 (by simpa using hnew)
    · -- add_item
      intro it c w
      by_cases htrim : c.size + it.stored_size > c.max_size
      · rw [add_item_succ_trim S n w htrim]
        cases hr : (trim S n (c.withItems (c.item_list ++ [it])) w it.stored_size).ret with
        | error e =>
          simp only [hr]
          rintro ⟨a, ha⟩; simp at ha
        | ok u =>
          simp only [hr]
          intro _
          have htr := ihtrim (c.withItems (c.item_list ++ [it])) w it.stored_size ⟨u, hr⟩
          refine ⟨?_, ?_⟩
          · have h1 := htr.1
            rw [Cache.delta_withItems] at h1
            simp only [sumSizes_append, sumSizes_cons, sumSizes_nil] at h1
            show Cache.delta ((trim S n (c.withItems (c.item_list ++ [it])) w it.stored_size).cache.withSize _) = _
            rw [delta_withSize]
            unfold Cache.delta at h1 ⊢
            linarith
          · intro h
            have := htr.2 (by simpa using h)
            simpa using this
      · rw [add_item_succ_no_trim S n w htrim]
        intro _
        refine ⟨?_, by intro h; simpa using h⟩
        simp [Cache.delta, sumSizes_append]
    · -- trim
      intro c w ex
      rw [trim_succ S n c w ex]
      intro hok
      have hsum : sumSizes (c.item_list.insertionSort (fun a b => c.policy a ≤ c.policy b))
          = sumSizes c.item_list :=
        sumSizes_perm (List.perm_insertionSort _ c.item_list)
      have hev := ihevict _ (c.withItems (c.item_list.insertionSort
          (fun a b => c.policy a ≤ c.policy b))) w hok
      refine ⟨by rw [hev.1]; simp [Cache.delta, hsum], ?_⟩
      intro hpinv
      exact hev.2 (by simpa using hpinv)
    · -- trim_evict
      intro ks c w
      cases ks with
      | nil =>
        rw [trim_evict_succ_nil]
        intro _
        exact ⟨rfl, fun h => h⟩
      | cons k rest =>
        cases hp : c.parent_cache with
        | none =>
          rw [trim_evict_succ_noparent S n k rest w hp]
          cases hr : (remove_value S c w k).ret with
          | error e =>
            simp only [hr]
            rintro ⟨a, ha⟩; simp at ha
          | ok u =>
            simp only [hr]
            intro hok
            have hrm := remove_value_pres2 S c w k
            have hev := ihevict rest (remove_value S c w k).cache (remove_value S c w k).world hok
            exact ⟨by rw [hev.1, hrm.1], fun h => hev.2 (hrm.2 h)⟩
        | some p0 =>
          rw [trim_evict_succ_parent S n k rest w hp]
          cases hg : (get_value S n c w k).ret with
          | error e =>
            simp only [hg]
            rintro ⟨a, ha⟩; simp at ha
          | ok v =>
            simp only [hg]
            have hG := ihget c w k ⟨v, hg⟩
            cases hr : (remove_value S (get_value S n c w k).cache (get_value S n c w k).world k).ret with
            | error e =>
              simp only [hr]
              rintro ⟨a, ha⟩; simp at ha
            | ok u =>
              simp only [hr]
              have hR := remove_value_pres2 S (get_value S n c w k).cache (get_value S n c w k).world k
              cases htr : pyTruthy v with
              | false =>
                simp only [htr, Bool.false_eq_true, if_false]
                intro hok
                have hev := ihevict rest _ _ hok
                exact ⟨by rw [hev.1, hR.1, hG.1], fun h => hev.2 (hR.2 (hG.2 h))⟩
              | true =>
                simp only [htr, if_true]
                cases hpp : (remove_value S (get_value S n c w k).cache (get_value S n c w k).world k).cache.parent_cache with
                | none =>
                  simp only [hpp]
                  intro hok
                  have hev := ihevict rest _ _ hok
                  exact ⟨by rw [hev.1, hR.1, hG.1], fun h => hev.2 (hR.2 (hG.2 h))⟩
                | some p =>
                  simp only [hpp]
                  cases hq : (put_value S n p
                      (remove_value S (get_value S n c w k).cache (get_value S n c w k).world k).world
                      k v).ret with
                  | error e =>
                    simp only [hq]
                    rintro ⟨a, ha⟩; simp at ha
                  | ok u2 =>
                    simp only [hq]
                    intro hok
                    have hev := ihevict rest _ _ hok
                    refine ⟨by rw [hev.1]; simp; rw [hR.1, hG.1], ?_⟩
                    intro hpinv
                    have h1 : Cache.parentInv (remove_value S (get_value S n c w k).cache (get_value S n c w k).world k).cache = true :=
                      hR.2 (hG.2 hpinv)
                    have hsp : Cache.sizeInvAll p = true := by
                      rw [parentInv_eq_of_parent_some hpp] at h1; exact h1
                    have hq2 : Cache.sizeInvAll (put_value S n p
                        (remove_value S (get_value S n c w k).cache (get_value S n c w k).world k).world
                        k v).cache = true :=
                      okPres_sizeInvAll (ihput p _ k v) ⟨u2, hq⟩ hsp
                    exact hev.2 (by simpa using hq2)
    · -- clear
      intro b c w
      cases hbp : c.parent_cache with
      | none =>
        rw [clear_succ_other S n b w (Or.inl hbp)]
        intro hok
        exact ihloop _ b c w hok
      | some p =>
        cases b with
        | false =>
          rw [clear_succ_other S n false w (Or.inr rfl)]
          intro hok
          exact ihloop _ false c w hok
        | true =>
          rw [clear_succ_parent_true S n w hbp]
          cases hr : (clear S n true p w).ret with
          | error e =>
            simp only [hr]
            rintro ⟨a, ha⟩; simp at ha
          | ok u =>
            simp only [hr]
            intro hok
            have hlp := ihloop _ true (c.withParent (some (clear S n true p w).cache))
                (clear S n true p w).world hok
            refine ⟨by rw [hlp.1]; simp, ?_⟩
            intro hpinv
            have hsp : Cache.sizeInvAll p = true := by
              rw [parentInv_eq_of_parent_some hbp] at hpinv; exact hpinv
            have hnew : Cache.sizeInvAll (clear S n true p w).cache = true :=
              okPres_sizeInvAll (ihclear true p w) ⟨u, hr⟩ hsp
            exact hlp.2 (by simpa using hnew)
    · -- clear_loop
      intro ks b c w
      cases ks with
      | nil =>
        rw [clear_loop_succ_nil]
        intro _
        exact ⟨rfl, fun h => h⟩
      | cons k rest =>
        cases hbp : c.parent_cache with
        | none =>
          rw [clear_loop_succ_cons_other S n k rest b w (Or.inl hbp)]
          cases hr : (remove_value S c w k).ret with
          | error e =>
            simp only [hr]
            rintro ⟨a, ha⟩; simp at ha
          | ok u =>
            simp only [hr]
            intro hok
            have hrm := remove_value_pres2 S c w k
            have hev := ihloop rest b (remove_value S c w k).cache (remove_value S c w k).world hok
            exact ⟨by rw [hev.1, hrm.1], fun h => hev.2 (hrm.2 h)⟩
        | some p0 =>
          cases b with
          | true =>
            rw [clear_loop_succ_cons_other S n k rest true w (Or.inr rfl)]
            cases hr : (remove_value S c w k).ret with
            | error e =>
              simp only [hr]
              rintro ⟨a, ha⟩; simp at ha
            | ok u =>
              simp only [hr]
              intro hok
              have hrm := remove_value_pres2 S c w k
              have hev := ihloop rest true (remove_value S c w k).cache (remove_value S c w k).world hok
              exact ⟨by rw [hev.1, hrm.1], fun h => hev.2 (hrm.2 h)⟩
          | false =>
            rw [clear_loop_succ_cons_flush S n k rest w hbp]
            cases hg : (get_value S n c w k).ret with
            | error e =>
              simp only [hg]
              rintro ⟨a, ha⟩; simp at ha
            | ok v =>
              simp only [hg]
              have hG := ihget c w k ⟨v, hg⟩
              cases htr : pyTruthy v with
              | false =>
                simp only [htr, Bool.false_eq_true, if_false]
                cases hr : (remove_value S (get_value S n c w k).cache (get_value S n c w k).world k).ret with
                | error e =>
                  simp only [hr]
                  rintro ⟨a, ha⟩; simp at ha
                | ok u =>
                  simp only [hr]
                  intro hok
                  have hrm := remove_value_pres2 S (get_value S n c w k).cache (get_value S n c w k).world k
                  have hev := ihloop rest false _ _ hok
                  exact ⟨by rw [hev.1, hrm.1, hG.1], fun h => hev.2 (hrm.2 (hG.2 h))⟩
              | true =>
                simp only [htr, if_true]
                cases hpp : (get_value S n c w k).cache.parent_cache with
                | none =>
                  simp only [hpp]
                  cases hr : (remove_value S (get_value S n c w k).cache (get_value S n c w k).world k).ret with
                  | error e =>
                    simp only [hr]
                    rintro ⟨a, ha⟩; simp at ha
                  | ok u =>
                    simp only [hr]
                    intro hok
                    have hrm := remove_value_pres2 S (get_value S n c w k).cache (get_value S n c w k).world k
                    have hev := ihloop rest false _ _ hok
                    exact ⟨by rw [hev.1, hrm.1, hG.1], fun h => hev.2 (hrm.2 (hG.2 h))⟩
                | some p =>
                  simp only [hpp]
                  cases hq : (put_value S n p (get_value S n c w k).world k v).ret with
                  | error e =>
                    simp only [hq]
                    rintro ⟨a, ha⟩; simp at ha
                  | ok u2 =>
                    simp only [hq]
                    cases hr : (remove_value S
                        ((get_value S n c w k).cache.withParent
                          (some (put_value S n p (get_value S n c w k).world k v).cache))
                        (put_value S n p (get_value S n c w k).world k v).world k).ret with
                    | error e =>
                      simp only [hr]
                      rintro ⟨a, ha⟩; simp at ha
                    | ok u =>
                      simp only [hr]
                      intro hok
                      have hrm := remove_value_pres2 S
                          ((get_value S n c w k).cache.withParent
                            (some (put_value S n p (get_value S n c w k).world k v).cache))
                          (put_value S n p (get_value S n c w k).world k v).world k
                      have hev := ihloop rest false _ _ hok
                      refine ⟨?_, ?_⟩
                      · rw [hev.1, hrm.1]
                        simp
                        rw [hG.1]
                      · intro hpinv
                        have h1 : Cache.parentInv (get_value S n c w k).cache = true := hG.2 hpinv
                        have hsp : Cache.sizeInvAll p = true := by
                          rw [parentInv_eq_of_parent_some hpp] at h1; exact h1
                        have hq2 : Cache.sizeInvAll (put_value S n p (get_value S n c w k).world k v).cache = true :=
                          okPres_sizeInvAll (ihput p _ k v) ⟨u2, hq⟩ hsp
                        exact hev.2 (hrm.2 (by simpa using hq2))

/-- One public engine operation (the surface of `Cache`). -/
inductive PubOp where
  | get (key : String)
  | put (key : String) (value : Option PyValue)
  | remove (key : String)
  | trimBy (extra_size : ℚ)
  | clearAll (clear_parent : Bool)

/-- Run one public operation (the value returned by `get_value` is
dropped; only the raised/normal status and the state matter here). -/
def runOp {σ ρ : Type} (S : CacheStore σ ρ) (fuel : Nat) (op : PubOp)
    (c : Cache ρ) (w : World σ) : Res Unit ρ σ :=
  match op with
  | .get k =>
    match get_value S fuel c w k with
    | ⟨.error e, c', w'⟩ => ⟨.error e, c', w'⟩
    | ⟨.ok _, c', w'⟩ => ⟨.ok (), c', w'⟩
  | .put k v =>
    match put_value S fuel c w k v with
    | ⟨.error e, c', w'⟩ => ⟨.error e, c', w'⟩
    | ⟨.ok _, c', w'⟩ => ⟨.ok (), c', w'⟩
  | .remove k => remove_value S c w k
  | .trimBy ex =>
    match trim S fuel c w ex with
    | ⟨.error e, c', w'⟩ => ⟨.error e, c', w'⟩
    | ⟨.ok _, c', w'⟩ => ⟨.ok (), c', w'⟩
  | .clearAll b =>
    match clear S fuel b c w with
    | ⟨.error e, c', w'⟩ => ⟨.error e, c', w'⟩
    | ⟨.ok _, c', w'⟩ => ⟨.ok (), c', w'⟩

/-- Run a sequence of public operations, stopping at the first one that
raises. -/
def runOps {σ ρ : Type} (S : CacheStore σ ρ) (fuel : Nat) :
    List PubOp → Cache ρ → World σ → Res Unit ρ σ
  | [], c, w => ⟨.ok (), c, w⟩
  | op :: rest, c, w =>
    match runOp S fuel op c w with
    | ⟨.error e, c', w'⟩ => ⟨.error e, c', w'⟩
    | ⟨.ok _, c', w'⟩ => runOps S fuel rest c' w'

/-- Every public operation that completes preserves the chain-wide size
invariant. -/
theorem runOp_preserves_sizeInvAll {σ ρ : Type} (S : CacheStore σ ρ)
    (fuel : Nat) (op : PubOp) (c : Cache ρ) (w : World σ)
    (hinv : Cache.sizeInvAll c = true)
    (hok : ∃ a, (runOp S fuel op c w).ret = .ok a) :
    Cache.sizeInvAll (runOp S fuel op c w).cache = true := by
  have hpre := ops_preserve S fuel
  cases op with
  | get k =>
    have hg := hpre.1 c w k
    simp only [runOp] at hok ⊢
    cases hr : get_value S fuel c w k with
    | mk ret c' w' =>
      simp only [hr] at hok ⊢
      cases ret with
      | error e =>
        obtain ⟨a, ha⟩ := hok
        simp at ha
      | ok v =>
        have := okPres_sizeInvAll hg (by rw [hr]; exact ⟨v, rfl⟩) hinv
        rw [hr] at this
        simpa using this
  | put k v =>
    have hg := hpre.2.2.1 c w k v
    simp only [runOp] at hok ⊢
    cases hr : put_value S fuel c w k v with
    | mk ret c' w' =>
      simp only [hr] at hok ⊢
      cases ret with
      | error e =>
        obtain ⟨a, ha⟩ := hok
        simp at ha
      | ok v2 =>
        have := okPres_sizeInvAll hg (by rw [hr]; exact ⟨v2, rfl⟩) hinv
        rw [hr] at this
        simpa using this
  | remove k =>
    exact (remove_value_preserves S c.depth c le_rfl w k).2 hinv
  | trimBy ex =>
    have hg := hpre.2.2.2.2.1 c w ex
    simp only [runOp] at hok ⊢
    cases hr : trim S fuel c w ex with
    | mk ret c' w' =>
      simp only [hr] at hok ⊢
      cases ret with
      | error e =>
        obtain ⟨a, ha⟩ := hok
        simp at ha
      | ok v2 =>
        have := okPres_sizeInvAll hg (by rw [hr]; exact ⟨v2, rfl⟩) hinv
        rw [hr] at this
        simpa using this
  | clearAll b =>
    have hg := hpre.2.2.2.2.2.2.1 b c w
    simp only [runOp] at hok ⊢
    cases hr : clear S fuel b c w with
    | mk ret c' w' =>
      simp only [hr] at hok ⊢
      cases ret with
      | error e =>
        obtain ⟨a, ha⟩ := hok
        simp at ha
      | ok v2 =>
        have := okPres_sizeInvAll hg (by rw [hr]; exact ⟨v2, rfl⟩) hinv
        rw [hr] at this
        simpa using this

theorem runOps_preserves_sizeInvAll {σ ρ : Type} (S : CacheStore σ ρ)
    (fuel : Nat) (ops : List PubOp) (c : Cache ρ) (w : World σ)
    (hinv : Cache.sizeInvAll c = true)
    (hok : ∃ a, (runOps S fuel ops c w).ret = .ok a) :
    Cache.sizeInvAll (runOps S fuel ops c w).cache = true := by
  induction ops generalizing c w with
  | nil => simpa [runOps] using hinv
  | cons op rest ihop =>
    simp only [runOps] at hok ⊢
    cases hr : runOp S fuel op c w with
    | mk ret c' w' =>
      simp only [hr] at hok ⊢
      cases ret with
      | error e =>
        obtain ⟨a, ha⟩ := hok
        simp at ha
      | ok u =>
        have h1 : Cache.sizeInvAll c' = true := by
          have := runOp_preserves_sizeInvAll S fuel op c w hinv (by rw [hr]; exact ⟨u, rfl⟩)
          rw [hr] at this
          simpa using this
        exact ihop c' w' h1 hok

/-- If the running size is already within bounds, the candidate scan
marks nothing (the condition can never become true again). -/
theorem trimSelect_eq_nil_of_le {ρ : Type} {mx ex size : ℚ}
    (h : size + ex ≤ mx) (l : List (Item ρ)) :
    trimSelect mx ex size l = [] := by
  induction l with
  | nil => rfl
  | cons it rest ih =>
    rw [trimSelect, if_neg (by linarith)]
    exact ih

/-- The candidate scan of `trim` selects a prefix of the scanned list:
either the remaining size (after deducting the prefix) is within
bounds, or everything was selected. -/
theorem trimSelect_spec {ρ : Type} (mx ex : ℚ) :
    ∀ (l : List (Item ρ)) (size : ℚ),
      ∃ pre post, l = pre ++ post ∧
        trimSelect mx ex size l = pre.map (·.key) ∧
        (size - sumSizes pre + ex ≤ mx ∨ post = []) := by
  intro l
  induction l with
  | nil =>
    intro size
    exact ⟨[], [], rfl, rfl, Or.inr rfl⟩
  | cons it rest ih =>
    intro size
    by_cases hc : size + ex > mx
    · obtain ⟨pre', post', heq, hsel, hdisj⟩ := ih (size - it.stored_size)
      refine ⟨it :: pre', post', by rw [heq]; rfl, ?_, ?_⟩
      · rw [trimSelect, if_pos hc, hsel]
        rfl
      · rcases hdisj with h | h
        · left
          rw [sumSizes_cons]
          linarith
        · right; exact h
    · refine ⟨[], it :: rest, rfl, ?_, Or.inl (by simpa using not_lt.mp hc)⟩
      rw [trimSelect, if_neg hc]
      exact trimSelect_eq_nil_of_le (not_lt.mp hc) rest

/-- The eviction loop of a single-tier `trim`, fed the keys of a prefix
of the (unique-keyed) item list, removes exactly that prefix and deducts
exactly its total size — provided it completes. -/
theorem trim_evict_noparent_prefix {σ ρ : Type} (S : CacheStore σ ρ) :
    ∀ (pre : List (Item ρ)) (n : Nat) (cap th : ℚ) (pol : Item ρ → ℚ)
      (sz mx : ℚ) (post : List (Item ρ)) (w : World σ),
      (((pre ++ post).map (·.key)).Nodup) →
      (∃ a, (trim_evict S n (pre.map (·.key))
        (.mk cap th pol none sz mx (pre ++ post)) w).ret = .ok a) →
      (trim_evict S n (pre.map (·.key))
        (.mk cap th pol none sz mx (pre ++ post)) w).cache
        = .mk cap th pol none (sz - sumSizes pre) mx post := by
  intro pre
  induction pre with
  | nil =>
    intro n cap th pol sz mx post w _ hok
    match n with
    | 0 => obtain ⟨a, ha⟩ := hok; rw [trim_evict] at ha; cases ha
    | n + 1 =>
      rw [List.map_nil, trim_evict_succ_nil]
      simp
  | cons it pre' ih =>
    intro n cap th pol sz mx post w hnd hok
    match n with
    | 0 => obtain ⟨a, ha⟩ := hok; rw [trim_evict] at ha; cases ha
    | n + 1 =>
      rw [List.map_cons] at hok ⊢
      rw [trim_evict_succ_noparent S n it.key (pre'.map (·.key)) w (by simp)] at hok ⊢
      have hfind : ((it :: pre') ++ post).find? (fun i => i.key = it.key) = some it := by
        rw [List.cons_append, List.find?_cons_of_pos _ (by simp)]
      have hrm :
          remove_value S (.mk cap th pol none sz mx ((it :: pre') ++ post)) w it.key
            = ⟨.ok (), .mk cap th pol none (sz - it.stored_size) mx (pre' ++ post),
               { w with store :=
                  match S.discard_value w.store it.key it.stored_value with
                  | .error _ => w.store
                  | .ok st => st }⟩ ∨
          (remove_value S (.mk cap th pol none sz mx ((it :: pre') ++ post)) w it.key).ret
            = .error (match S.discard_value w.store it.key it.stored_value with
                      | .error e => e
                      | .ok _ => .fuel) := by
        rw [remove_value]
        simp only [Cache.findItem_mk, hfind]
        have hrem : removeFirstByKey it.key (it :: (pre' ++ post)) = pre' ++ post := by
          rw [removeFirstByKey, if_pos rfl]
        cases hdc : S.discard_value w.store it.key it.stored_value with
        | error e => right; simp [hdc]
        | ok st => left; simp [hdc, hrem]
      rcases hrm with hcase | hcase
      · rw [hcase] at hok ⊢
        simp only at hok ⊢
        have hnd' : ((pre' ++ post).map (·.key)).Nodup := by
          rw [List.cons_append, List.map_cons, List.nodup_cons] at hnd
          exact hnd.2
        have := ih n cap th pol (sz - it.stored_size) mx post _ hnd' hok
        rw [this, sumSizes_cons]
        ring_nf
      · obtain ⟨a, ha⟩ := hok
        rw [hcase] at ha
        cases ha

/-- `removeFirstByKey` only removes items: anything in the result was in
the original list. -/
theorem mem_removeFirstByKey {ρ : Type} {k : String} {x : Item ρ} :
    ∀ {l : List (Item ρ)}, x ∈ removeFirstByKey k l → x ∈ l := by
  intro l
  induction l with
  | nil => intro h; simpa [removeFirstByKey] using h
  | cons it rest ih =>
    intro h
    rw [removeFirstByKey] at h
    by_cases hk : it.key = k
    · rw [if_pos hk] at h
      exact List.mem_cons_of_mem _ h
    · rw [if_neg hk] at h
      rcases List.mem_cons.mp h with h1 | h2
      · exact h1 ▸ List.mem_cons_self _ _
      · exact List.mem_cons_of_mem _ (ih h2)

/-- In a single-tier engine, `remove_value` keeps the tier parentless and
only removes items from the index. -/
theorem remove_value_noparent_facts {σ ρ : Type} (S : CacheStore σ ρ)
    (cap th : ℚ) (pol : Item ρ → ℚ) (sz mx : ℚ) (l : List (Item ρ))
    (w : World σ) (k : String) :
    (remove_value S (.mk cap th pol none sz mx l) w k).cache.parent_cache = none ∧
    ∀ x ∈ (remove_value S (.mk cap th pol none sz mx l) w k).cache.item_list,
      x ∈ l := by
  rw [remove_value]
  cases hf : l.find? (fun it => it.key = k) with
  | none =>
    simp only [Cache.findItem_mk, hf]
    exact ⟨rfl, fun x hx => hx⟩
  | some item =>
    simp only [Cache.findItem_mk, hf]
    cases hdc : S.discard_value w.store k item.stored_value with
    | error e =>
      simp only [hdc, Cache.parent_mk, Cache.item_list_mk]
      exact ⟨by trivial, fun x hx => mem_removeFirstByKey hx⟩
    | ok st =>
      simp only [hdc, Cache.parent_mk, Cache.item_list_mk]
      exact ⟨by trivial, fun x hx => mem_removeFirstByKey hx⟩

/-- The eviction loop of a single-tier engine keeps the tier parentless
and only removes items from the index (unconditionally, even when it
raises part-way). -/
theorem trim_evict_noparent_subset {σ ρ : Type} (S : CacheStore σ ρ) :
    ∀ (n : Nat) (ks : List String) (c : Cache ρ) (w : World σ),
      c.parent_cache = none →
      (trim_evict S n ks c w).cache.parent_cache = none ∧
      ∀ x ∈ (trim_evict S n ks c w).cache.item_list, x ∈ c.item_list := by
  intro n
  induction n with
  | zero =>
    intro ks c w hp
    exact ⟨hp, fun x hx => hx⟩
  | succ n ih =>
    intro ks c w hp
    cases ks with
    | nil =>
      rw [trim_evict_succ_nil]
      exact ⟨hp, fun x hx => hx⟩
    | cons k rest =>
      obtain ⟨cap, th, pol, pc, sz, mx, l⟩ := c
      rw [Cache.parent_mk] at hp
      subst hp
      rw [trim_evict_succ_noparent S n k rest w (Cache.parent_mk cap th pol none sz mx l)]
      obtain ⟨hrp, hrsub⟩ := remove_value_noparent_facts S cap th pol sz mx l w k
      cases hr : (remove_value S (.mk cap th pol none sz mx l) w k).ret with
      | error e =>
        simp only [hr]
        exact ⟨hrp, hrsub⟩
      | ok a =>
        simp only [hr]
        have hih := ih rest (remove_value S (.mk cap th pol none sz mx l) w k).cache
          (remove_value S (.mk cap th pol none sz mx l) w k).world hrp
        refine ⟨hih.1, fun x hx => ?_⟩
        exact hrsub x (hih.2 x hx)

/-- A single-tier `trim` keeps the tier parentless and only removes
items (the in-place re-sort permutes them first). -/
theorem trim_noparent_subset {σ ρ : Type} (S : CacheStore σ ρ) (n : Nat)
    (c : Cache ρ) (w : World σ) (ex : ℚ) (hp : c.parent_cache = none) :
    (trim S n c w ex).cache.parent_cache = none ∧
    ∀ x ∈ (trim S n c w ex).cache.item_list, x ∈ c.item_list := by
  match n with
  | 0 => exact ⟨hp, fun x hx => hx⟩
  | n + 1 =>
    rw [trim_succ]
    have hp1 : (c.withItems
        (c.item_list.insertionSort (fun a b => c.policy a ≤ c.policy b))).parent_cache
        = none := by simpa using hp
    have h := trim_evict_noparent_subset S n
      (trimSelect c.max_size ex c.size
        (c.item_list.insertionSort (fun a b => c.policy a ≤ c.policy b)))
      (c.withItems (c.item_list.insertionSort (fun a b => c.policy a ≤ c.policy b))) w hp1
    refine ⟨h.1, fun x hx => ?_⟩
    have := h.2 x hx
    rw [item_list_withItems] at this
    exact (List.perm_insertionSort _ _).mem_iff.mp this

/-- `find?` skips a block in which nothing matches. -/
theorem find?_append_of_none {α : Type} {p : α → Bool} {l1 : List α}
    (h : l1.find? p = none) (l2 : List α) :
    (l1 ++ l2).find? p = l2.find? p := by
  induction l1 with
  | nil => rfl
  | cons a rest ih =>
    cases hpa : p a with
    | true => rw [List.find?_cons_of_pos _ hpa] at h; cases h
    | false =>
      have hpa2 : ¬ p a = true := by simp [hpa]
      rw [List.find?_cons_of_neg _ hpa2] at h
      rw [List.cons_append, List.find?_cons_of_neg _ hpa2]
      exact ih h

/-- `Item.store` through the memory backend always succeeds and yields a
fresh item whose stored representation is the `[key, value]` pair. -/
theorem memory_storeOp_eq (k : String) (v : Option PyValue) (w : World Unit) :
    Item.storeOp MemoryCacheStore (Item.init : Item MemRep) k v w =
      (.ok { key := k, stored_value := some ⟨k, v⟩,
             stored_size := _compute_object_size v, creation_time := 0,
             access_time := w.clock, access_count := 1 },
       { w with clock := w.clock + 1 }) := rfl

/-- Restoring an item through the memory backend returns the embedded
value whenever the stored pair carries the item's key, bumping the
item's access statistics and the clock. -/
theorem memory_restoreOp_eq (it : Item MemRep) (k : String) (v : Option PyValue)
    (w : World Unit) (hrep : it.stored_value = some ⟨k, v⟩) :
    Item.restoreOp MemoryCacheStore it k w =
      (.ok v, { it with access_time := w.clock, access_count := it.access_count + 1 },
       { w with clock := w.clock + 1 }) := by
  obtain ⟨ik, isv, iss, ict, iat, iac⟩ := it
  have h2 : isv = some ⟨k, v⟩ := hrep
  subst h2
  simp [Item.restoreOp, Item.access, MemoryCacheStore]

/-- When a single-tier `_add_item` of a fresh item carrying the key
completes on an engine with no resident item for that key, the only item
the key can afterwards resolve to is that fresh item (the interleaved
trim only removes items). -/
theorem add_item_fresh_key_find {σ ρ : Type} (S : CacheStore σ ρ) (n : Nat)
    (cap th : ℚ) (pol : Item ρ → ℚ) (sz mx : ℚ) (l : List (Item ρ))
    (w : World σ) (k : String) (newIt it : Item ρ)
    (hkey : newIt.key = k)
    (hl : l.find? (fun i => i.key = k) = none)
    (hok : ∃ a, (add_item S n newIt (.mk cap th pol none sz mx l) w).ret = .ok a)
    (hres : (add_item S n newIt (.mk cap th pol none sz mx l) w).cache.findItem k
      = some it) :
    it = newIt := by
  match n with
  | 0 =>
    obtain ⟨a, ha⟩ := hok
    rw [add_item] at ha
    cases ha
  | n + 1 =>
    by_cases hsz : sz + newIt.stored_size > mx
    · rw [add_item_succ_trim S n w
          (show (Cache.mk cap th pol none sz mx l).size + newIt.stored_size
              > (Cache.mk cap th pol none sz mx l).max_size from hsz)] at hok hres
      simp only [Cache.item_list_mk] at hok hres
      cases ht : (trim S n ((Cache.mk cap th pol none sz mx l).withItems (l ++ [newIt])) w
          newIt.stored_size).ret with
      | error e =>
        simp only [ht] at hok
        obtain ⟨a, ha⟩ := hok
        cases ha
      | ok b =>
        simp only [ht] at hres
        rw [findItem_withSize] at hres
        unfold Cache.findItem at hres
        have hps := List.find?_some hres
        have hkeyit : it.key = k := by simpa using hps
        have hmem := List.mem_of_find?_eq_some hres
        have hsub := (trim_noparent_subset S n
          ((Cache.mk cap th pol none sz mx l).withItems (l ++ [newIt])) w
          newIt.stored_size (by simp)).2
        have hmem2 : it ∈ l ++ [newIt] := by simpa using hsub it hmem
        rcases List.mem_append.mp hmem2 with h1 | h2
        · exact absurd (by simpa using List.find?_eq_none.mp hl it h1) (by simp [hkeyit])
        · simpa using h2
    · rw [add_item_succ_no_trim S n w
          (show ¬ (Cache.mk cap th pol none sz mx l).size + newIt.stored_size
              > (Cache.mk cap th pol none sz mx l).max_size from hsz)] at hres
      rw [findItem_withSize, findItem_withItems, Cache.item_list_mk] at hres
      rw [find?_append_of_none hl] at hres
      rw [List.find?_cons_of_pos _ (by simpa using hkey)] at hres
      exact (Option.some.inj hres).symm

/-- Replacing the first item carrying a key by another item carrying the
same key makes the lookup for that key return the replacement. -/
theorem find?_setFirstByKey {ρ : Type} {l : List (Item ρ)} {k : String}
    {it it' : Item ρ} (hf : l.find? (fun i => i.key = k) = some it)
    (hk : it'.key = k) :
    (setFirstByKey k it' l).find? (fun i => i.key = k) = some it' := by
  induction l with
  | nil => cases hf
  | cons a rest ih =>
    by_cases ha : a.key = k
    · rw [setFirstByKey, if_pos ha]
      rw [List.find?_cons_of_pos _ (by simpa using hk)]
    · rw [List.find?_cons_of_neg _ (by simpa using ha)] at hf
      rw [setFirstByKey, if_neg ha, List.find?_cons_of_neg _ (by simpa using ha)]
      exact ih hf

/-- Replacing the first item carrying a key by an item carrying the same
key does not change the key sequence of the list. -/
theorem map_key_setFirstByKey {ρ : Type} (k : String) (it' : Item ρ)
    (hk : it'.key = k) :
    ∀ (l : List (Item ρ)), (setFirstByKey k it' l).map (·.key) = l.map (·.key) := by
  intro l
  induction l with
  | nil => rfl
  | cons a rest ih =>
    by_cases ha : a.key = k
    · rw [setFirstByKey, if_pos ha, List.map_cons, List.map_cons, hk, ha]
    · rw [setFirstByKey, if_neg ha, List.map_cons, List.map_cons, ih]

/-- Decidable equality for raised-or-returned results (used to evaluate
concrete scenarios). -/
instance instDecEqExcept {ε α : Type} [DecidableEq ε] [DecidableEq α] :
    DecidableEq (Except ε α) :=
  fun x y =>
    match x, y with
    | .error e1, .error e2 =>
      if h : e1 = e2 then .isTrue (by rw [h])
      else .isFalse (by intro hc; cases hc; exact h rfl)
    | .ok a1, .ok a2 =>
      if h : a1 = a2 then .isTrue (by rw [h])
      else .isFalse (by intro hc; cases hc; exact h rfl)
    | .error _, .ok _ => .isFalse (by intro hc; cases hc)
    | .ok _, .error _ => .isFalse (by intro hc; cases hc)

section Claims

/- Batteries marks the `Rat` arithmetic operations `@[irreducible]`,
which blocks `decide` from evaluating concrete cache scenarios; the
kernel itself checks such proofs without issue.  Locally restore
reducibility for the evaluation of the concrete claims below. -/
attribute [local semireducible] Rat.add Rat.sub Rat.mul Rat.inv Rat.ofScientific

/-- C1.  For every cache engine — any store, any policy, any capacity
and threshold, any parent-tier chain — and every sequence of public
operations (`get_value`, `put_value`, `remove_value`, `trim`, `clear`),
each of which completes without raising, the engine afterwards satisfies
`Cache._size = Σ stored_size` over the entries of its index, and so does
every ancestor tier.  (`sizeInvAll` is exactly that equation, applied
down the parent chain; an operation that raises does not "complete" in
the sense of the claim, and the exception propagating out of
`Cache._add_item` can indeed leave `_size` stale.) -/
theorem claim_C1_size_invariant {σ ρ : Type} (S : CacheStore σ ρ)
    (fuel : Nat) (ops : List PubOp) (c : Cache ρ) (w : World σ)
    (hinv : Cache.sizeInvAll c = true)
    (hok : ∃ a, (runOps S fuel ops c w).ret = .ok a) :
    (runOps S fuel ops c w).cache.size
        = sumSizes (runOps S fuel ops c w).cache.item_list ∧
      Cache.sizeInvAll (runOps S fuel ops c w).cache = true := by
  have h := runOps_preserves_sizeInvAll S fuel ops c w hinv hok
  refine ⟨?_, h⟩
  have hd := Cache.delta_eq_zero_of_sizeInvAll h
  unfold Cache.delta at hd
  linarith

/-- Witness for C1: a two-tier memory-backed engine under LRU, with a
sequence that exercises put (with eviction/demotion), get, remove, trim
and clear. -/
theorem claim_C1_size_invariant_witness :
    Cache.sizeInvAll
        (Cache.init 100 (1/2) _policy_lru
          (some (Cache.init 1000 (3/4) _policy_lru none)) : Cache MemRep) = true ∧
    (runOps MemoryCacheStore 20
        [PubOp.put "a" (some ⟨1, 30, true⟩), PubOp.put "b" (some ⟨2, 30, true⟩),
         PubOp.get "b", PubOp.remove "a", PubOp.trimBy 0, PubOp.clearAll true]
        (Cache.init 100 (1/2) _policy_lru
          (some (Cache.init 1000 (3/4) _policy_lru none))) ⟨0, ()⟩).ret = .ok () ∧
    ((runOps MemoryCacheStore 20
        [PubOp.put "a" (some ⟨1, 30, true⟩), PubOp.put "b" (some ⟨2, 30, true⟩),
         PubOp.get "b", PubOp.remove "a", PubOp.trimBy 0, PubOp.clearAll true]
        (Cache.init 100 (1/2) _policy_lru
          (some (Cache.init 1000 (3/4) _policy_lru none))) ⟨0, ()⟩).cache.size
      = sumSizes (runOps MemoryCacheStore 20
        [PubOp.put "a" (some ⟨1, 30, true⟩), PubOp.put "b" (some ⟨2, 30, true⟩),
         PubOp.get "b", PubOp.remove "a", PubOp.trimBy 0, PubOp.clearAll true]
        (Cache.init 100 (1/2) _policy_lru
          (some (Cache.init 1000 (3/4) _policy_lru none))) ⟨0, ()⟩).cache.item_list) :=
  ⟨by decide, by decide,
   (claim_C1_size_invariant MemoryCacheStore 20
      [PubOp.put "a" (some ⟨1, 30, true⟩), PubOp.put "b" (some ⟨2, 30, true⟩),
       PubOp.get "b", PubOp.remove "a", PubOp.trimBy 0, PubOp.clearAll true]
      (Cache.init 100 (1/2) _policy_lru
        (some (Cache.init 1000 (3/4) _policy_lru none))) ⟨0, ()⟩
      (by decide) ⟨(), by decide⟩).1⟩

/-- `os.remove` leaves the removed path absent. -/
theorem fsExists_fsRemove (fs : FileSystem) (path : String) :
    fsExists (fsRemove fs path) path = false := by
  unfold fsExists fsRemove
  induction fs with
  | nil => rfl
  | cons e rest ih =>
    rw [List.filter_cons]
    by_cases h : e.1 = path
    · rw [if_neg (by simpa using h)]
      exact ih
    · rw [if_pos (by simpa using h), List.find?_cons_of_neg _ (by simpa using h)]
      exact ih

/-- Removing a path twice is the same as removing it once. -/
theorem fsRemove_idem (fs : FileSystem) (path : String) :
    fsRemove (fsRemove fs path) path = fsRemove fs path := by
  unfold fsRemove
  rw [List.filter_filter]
  simp

/-- C8.  `MemoryCacheStore.load_from_key` executes `raise NotImplemented()`
for every key, which raises `TypeError` (the `NotImplemented` singleton
is not callable); the operation never returns normally, but the class it
raises is `TypeError`, not `NotImplementedError`. -/
theorem claim_C8_memory_load_raises_type_error (st : Unit) (key : String) :
    MemoryCacheStore.load_from_key st key = .error .typeErrorNotCallable := rfl

/-- C9.  `FileCacheStore.discard_value` deletes the file at the path
derived from the key and never raises: the first discard removes the
path from the file system, and a second discard of the same key
succeeds and leaves the file system unchanged (the missing-file error
is swallowed by `except IOError: pass`). -/
theorem claim_C9_file_discard_idempotent (cache_dir ext : String)
    (fs : FileSystem) (key : String) (rep rep2 : Option String) :
    (FileCacheStore cache_dir ext).discard_value fs key rep
        = .ok (fsRemove fs (key_to_path cache_dir ext key)) ∧
      fsExists (fsRemove fs (key_to_path cache_dir ext key))
        (key_to_path cache_dir ext key) = false ∧
      (FileCacheStore cache_dir ext).discard_value
          (fsRemove fs (key_to_path cache_dir ext key)) key rep2
        = .ok (fsRemove fs (key_to_path cache_dir ext key)) := by
  refine ⟨rfl, fsExists_fsRemove fs _, ?_⟩
  show Except.ok (fsRemove (fsRemove fs (key_to_path cache_dir ext key))
      (key_to_path cache_dir ext key)) = _
  rw [fsRemove_idem]

/-- C4.  Concrete scenario: single-tier memory-backed engine with
`capacity = 100`, `threshold = 1/2` (so `max_size = 50`) and the LRU
policy.  `put('a', v1)` then `put('b', v2)`, each value of stored size
30: the second put triggers a trim that evicts `'a'` (the least recently
touched key), leaving only `'b'` resident; `get('a')` then returns the
not-found value `None` and `get('b')` returns the stored value. -/
theorem claim_C4_lru_eviction_scenario :
    (let c0 : Cache MemRep := Cache.init 100 (1/2) _policy_lru none
     let r1 := put_value MemoryCacheStore 20 c0 ⟨0, ()⟩ "a" (some ⟨1, 30, true⟩)
     let r2 := put_value MemoryCacheStore 20 r1.cache r1.world "b" (some ⟨2, 30, true⟩)
     let g1 := get_value MemoryCacheStore 20 r2.cache r2.world "a"
     let g2 := get_value MemoryCacheStore 20 g1.cache g1.world "b"
     r1.ret = .ok none ∧ r2.ret = .ok none ∧
       r2.cache.item_list.map (·.key) = ["b"] ∧
       (r2.cache.findItem "a").isNone = true ∧
       g1.ret = .ok none ∧
       g2.ret = .ok (some ⟨2, 30, true⟩)) := by
  decide

/-- C5.  The parent-hit path of `get_value` is broken: in a two-tier
memory-backed chain, keys demoted into the parent by a child trim are
*not* retrievable through the child without error.  Concretely: child
(capacity 100, threshold 1/2, LRU) over parent (capacity 1000, threshold
3/4); `put('a', 30-unit)` then `put('b', 30-unit)` demotes `'a'` into
the parent (it resides in the parent's index and not the child's), and
`get_value('a')` on the child then raises `AttributeError` — the source
calls `.restore(...)` on the plain value returned by the parent's
`get_value` — instead of returning the restored value. -/
theorem claim_C5_parent_hit_raises :
    (let par0 : Cache MemRep := Cache.init 1000 (3/4) _policy_lru none
     let ch0 : Cache MemRep := Cache.init 100 (1/2) _policy_lru (some par0)
     let r1 := put_value MemoryCacheStore 20 ch0 ⟨0, ()⟩ "a" (some ⟨1, 30, true⟩)
     let r2 := put_value MemoryCacheStore 20 r1.cache r1.world "b" (some ⟨2, 30, true⟩)
     let g1 := get_value MemoryCacheStore 20 r2.cache r2.world "a"
     r2.ret = .ok none ∧
       (r2.cache.findItem "a").isNone = true ∧
       (r2.cache.parent_cache.map
          (fun p => ((p.findItem "a").map (·.key), (p.findItem "b").isNone)))
         = some (some "a", true) ∧
       g1.ret = .error .attributeError) := by
  decide

/-- C2.  For every single-tier engine (no parent tier, unique keys,
with its size bookkeeping consistent and a non-negative `max_size`),
after a `trim()` with `extra_size = 0` that completes, `current_size` is
at most `max_size`: the eviction scan drains entries (lowest policy
score first) until the remaining size is under `max_size`, or the
engine is empty (size `0 ≤ max_size`). -/
theorem claim_C2_trim_bounds_size {σ ρ : Type} (S : CacheStore σ ρ) (fuel : Nat)
    (c : Cache ρ) (w : World σ)
    (hparent : c.parent_cache = none)
    (hnd : (c.item_list.map (·.key)).Nodup)
    (hinv : c.size = sumSizes c.item_list)
    (hmx : 0 ≤ c.max_size)
    (hok : ∃ a, (trim S fuel c w 0).ret = .ok a) :
    (trim S fuel c w 0).cache.size ≤ c.max_size := by
  obtain ⟨cap, th, pol, pc, sz, mx, l⟩ := c
  simp only [Cache.parent_mk] at hparent
  subst hparent
  simp only [Cache.item_list_mk, Cache.size_mk, Cache.max_size_mk] at hnd hinv hmx ⊢
  match fuel with
  | 0 =>
    obtain ⟨a, ha⟩ := hok
    simp [trim, engineStep] at ha
  | n + 1 =>
    rw [trim_succ] at hok ⊢
    simp only [Cache.item_list_mk, Cache.policy_mk, Cache.max_size_mk, Cache.size_mk,
      Cache.withItems_mk] at hok ⊢
    have hperm := List.perm_insertionSort (fun a b => pol a ≤ pol b) l
    obtain ⟨pre, post, heq, hsel, hdisj⟩ :=
      trimSelect_spec mx 0 (l.insertionSort (fun a b => pol a ≤ pol b)) sz
    rw [hsel, heq] at hok ⊢
    have hndL : ((pre ++ post).map (·.key)).Nodup := by
      rw [← heq]
      exact (hperm.map (·.key)).nodup_iff.mpr hnd
    have hshape := trim_evict_noparent_prefix S pre n cap th pol sz mx post w hndL hok
    rw [hshape, Cache.size_mk]
    rcases hdisj with h | h
    · linarith
    · subst h
      have hpre : pre = l.insertionSort (fun a b => pol a ≤ pol b) := by
        rw [heq, List.append_nil]
      have hsum : sumSizes pre = sz := by
        rw [hpre, sumSizes_perm hperm, hinv]
      rw [hsum]
      linarith

/-- Witness for C2: a single-tier engine holding three 30-unit items
with total size 90 against `max_size = 50`; the trim completes and
leaves the size at 30. -/
theorem claim_C2_trim_bounds_size_witness :
    ((Cache.mk 100 (1/2) _policy_lru none 90 50
        [⟨"x", some ⟨"x", some ⟨1, 30, true⟩⟩, 30, 0, 1, 1⟩,
         ⟨"y", some ⟨"y", some ⟨2, 30, true⟩⟩, 30, 0, 2, 1⟩,
         ⟨"z", some ⟨"z", some ⟨3, 30, true⟩⟩, 30, 0, 3, 1⟩] : Cache MemRep).parent_cache
      = none) ∧
    ((trim MemoryCacheStore 10
        (Cache.mk 100 (1/2) _policy_lru none 90 50
          [⟨"x", some ⟨"x", some ⟨1, 30, true⟩⟩, 30, 0, 1, 1⟩,
           ⟨"y", some ⟨"y", some ⟨2, 30, true⟩⟩, 30, 0, 2, 1⟩,
           ⟨"z", some ⟨"z", some ⟨3, 30, true⟩⟩, 30, 0, 3, 1⟩]) ⟨9, ()⟩ 0).ret
      = .ok none) ∧
    (trim MemoryCacheStore 10
        (Cache.mk 100 (1/2) _policy_lru none 90 50
          [⟨"x", some ⟨"x", some ⟨1, 30, true⟩⟩, 30, 0, 1, 1⟩,
           ⟨"y", some ⟨"y", some ⟨2, 30, true⟩⟩, 30, 0, 2, 1⟩,
           ⟨"z", some ⟨"z", some ⟨3, 30, true⟩⟩, 30, 0, 3, 1⟩]) ⟨9, ()⟩ 0).cache.size
      ≤ (Cache.mk 100 (1/2) _policy_lru none 90 50
          [⟨"x", some ⟨"x", some ⟨1, 30, true⟩⟩, 30, 0, 1, 1⟩,
           ⟨"y", some ⟨"y", some ⟨2, 30, true⟩⟩, 30, 0, 2, 1⟩,
           ⟨"z", some ⟨"z", some ⟨3, 30, true⟩⟩, 30, 0, 3, 1⟩] : Cache MemRep).max_size :=
  ⟨rfl, by decide,
   claim_C2_trim_bounds_size MemoryCacheStore 10
     (Cache.mk 100 (1/2) _policy_lru none 90 50
       [⟨"x", some ⟨"x", some ⟨1, 30, true⟩⟩, 30, 0, 1, 1⟩,
        ⟨"y", some ⟨"y", some ⟨2, 30, true⟩⟩, 30, 0, 2, 1⟩,
        ⟨"z", some ⟨"z", some ⟨3, 30, true⟩⟩, 30, 0, 3, 1⟩]) ⟨9, ()⟩
     rfl (by decide) (by decide) (by decide) ⟨none, by decide⟩⟩

/-- C6 (counterexample).  The claim "the lowest-scored entry is evicted
last: among the entries a trim evicts, an entry with a higher policy
score is evicted before one with a lower score" is false.  Concrete
input: a child tier (LRU) holding `'a'` (score 1) and `'b'` (score 2)
over an empty parent; a trim that must evict both processes the keys in
the order `["a", "b"]` — the *lowest*-scored entry first — as witnessed
both by the candidate list `trim` computes and by the demotion order
into the parent (the parent's `'a'` entry is created before its `'b'`
entry, with a strictly earlier access time). -/
theorem claim_C6_counterexample :
    (let par0 : Cache MemRep := Cache.init 1000 (3/4) _policy_lru none
     let child : Cache MemRep :=
       Cache.mk 100 (1/2) _policy_lru (some par0) 60 50
         [⟨"a", some ⟨"a", some ⟨1, 30, true⟩⟩, 30, 0, 1, 1⟩,
          ⟨"b", some ⟨"b", some ⟨2, 30, true⟩⟩, 30, 0, 2, 1⟩]
     let tr := trim MemoryCacheStore 20 child ⟨3, ()⟩ 100
     _policy_lru (⟨"a", some ⟨"a", some ⟨1, 30, true⟩⟩, 30, 0, 1, 1⟩ : Item MemRep)
         < _policy_lru (⟨"b", some ⟨"b", some ⟨2, 30, true⟩⟩, 30, 0, 2, 1⟩ : Item MemRep) ∧
       trimSelect child.max_size 100 child.size
           (child.item_list.insertionSort (fun x y => child.policy x ≤ child.policy y))
         = ["a", "b"] ∧
       tr.ret = .ok none ∧
       tr.cache.item_list.map (·.key) = [] ∧
       (tr.cache.parent_cache.map (fun p => p.item_list.map (·.key))) = some ["a", "b"] ∧
       (tr.cache.parent_cache.map (fun p =>
           decide (∀ x ∈ p.item_list, ∀ y ∈ p.item_list,
             x.key = "a" → y.key = "b" → x.access_time < y.access_time)))
         = some true) := by
  decide

/-- C6 (amended).  During `trim`, resident entries are ranked by the
configured policy score in ascending order, and the eviction candidates
form a *prefix* of that ranking: the candidate keys are processed
lowest-score-first, every pair of candidates is in ascending score
order, and every retained entry scores at least as high as every
evicted one. -/
theorem claim_C6_amended_eviction_order {σ ρ : Type} (S : CacheStore σ ρ)
    (n : Nat) (c : Cache ρ) (w : World σ) (extra_size : ℚ) :
    ∃ pre post : List (Item ρ),
      c.item_list.insertionSort (fun a b => c.policy a ≤ c.policy b) = pre ++ post ∧
      trim S (n + 1) c w extra_size
        = trim_evict S n (pre.map (·.key)) (c.withItems (pre ++ post)) w ∧
      List.Pairwise (fun a b => c.policy a ≤ c.policy b) pre ∧
      (∀ x ∈ pre, ∀ y ∈ post, c.policy x ≤ c.policy y) := by
  obtain ⟨pre, post, heq, hsel, _⟩ :=
    trimSelect_spec c.max_size extra_size
      (c.item_list.insertionSort (fun a b => c.policy a ≤ c.policy b)) c.size
  refine ⟨pre, post, heq, ?_, ?_, ?_⟩
  · rw [trim_succ, hsel, heq]
  · have hsorted : List.Sorted (fun a b => c.policy a ≤ c.policy b)
        (c.item_list.insertionSort (fun a b => c.policy a ≤ c.policy b)) := by
      letI : IsTotal (Item ρ) (fun a b => c.policy a ≤ c.policy b) :=
        ⟨fun a b => le_total (c.policy a) (c.policy b)⟩
      letI : IsTrans (Item ρ) (fun a b => c.policy a ≤ c.policy b) :=
        ⟨fun a b d h1 h2 => le_trans h1 h2⟩
      exact List.sorted_insertionSort _ _
    rw [heq] at hsorted
    exact (List.pairwise_append.mp hsorted).1
  · have hsorted : List.Sorted (fun a b => c.policy a ≤ c.policy b)
        (c.item_list.insertionSort (fun a b => c.policy a ≤ c.policy b)) := by
      letI : IsTotal (Item ρ) (fun a b => c.policy a ≤ c.policy b) :=
        ⟨fun a b => le_total (c.policy a) (c.policy b)⟩
      letI : IsTrans (Item ρ) (fun a b => c.policy a ≤ c.policy b) :=
        ⟨fun a b d h1 h2 => le_trans h1 h2⟩
      exact List.sorted_insertionSort _ _
    rw [heq] at hsorted
    exact (List.pairwise_append.mp hsorted).2.2

/-- C7.  For every engine (any store, any tier chain, with the engine's
per-tier unique-key invariant) and every key, a second `remove_value`
immediately after one that completed is a complete no-op: it raises no
error and leaves the engine, all ancestor tiers, the store and the
clock exactly unchanged.  In particular, removing a key absent from
this tier and every parent tier changes nothing. -/
theorem claim_C7_remove_idempotent {σ ρ : Type} (S : CacheStore σ ρ)
    (c : Cache ρ) (w : World σ) (k : String)
    (hnd : Cache.nodupKeysAll c = true)
    (hok : (remove_value S c w k).ret = .ok ()) :
    remove_value S (remove_value S c w k).cache (remove_value S c w k).world k
      = ⟨.ok (), (remove_value S c w k).cache, (remove_value S c w k).world⟩ :=
  remove_value_of_absent S (remove_value S c w k).cache.depth _ le_rfl _ k
    (remove_value_absent S c.depth c le_rfl w k hnd hok)

/-- Witness for C7: a one-item memory-backed engine; the first remove
completes, and the theorem yields the second remove as a no-op. -/
theorem claim_C7_remove_idempotent_witness :
    Cache.nodupKeysAll
        (Cache.mk 100 (3/4) _policy_lru none 5 75
          [⟨"x", some ⟨"x", some ⟨7, 5, true⟩⟩, 5, 0, 0, 1⟩] : Cache MemRep) = true ∧
    (remove_value MemoryCacheStore
        (Cache.mk 100 (3/4) _policy_lru none 5 75
          [⟨"x", some ⟨"x", some ⟨7, 5, true⟩⟩, 5, 0, 0, 1⟩]) ⟨3, ()⟩ "x").ret = .ok () ∧
    remove_value MemoryCacheStore
        (remove_value MemoryCacheStore
          (Cache.mk 100 (3/4) _policy_lru none 5 75
            [⟨"x", some ⟨"x", some ⟨7, 5, true⟩⟩, 5, 0, 0, 1⟩]) ⟨3, ()⟩ "x").cache
        (remove_value MemoryCacheStore
          (Cache.mk 100 (3/4) _policy_lru none 5 75
            [⟨"x", some ⟨"x", some ⟨7, 5, true⟩⟩, 5, 0, 0, 1⟩]) ⟨3, ()⟩ "x").world "x"
      = ⟨.ok (),
         (remove_value MemoryCacheStore
           (Cache.mk 100 (3/4) _policy_lru none 5 75
             [⟨"x", some ⟨"x", some ⟨7, 5, true⟩⟩, 5, 0, 0, 1⟩]) ⟨3, ()⟩ "x").cache,
         (remove_value MemoryCacheStore
           (Cache.mk 100 (3/4) _policy_lru none 5 75
             [⟨"x", some ⟨"x", some ⟨7, 5, true⟩⟩, 5, 0, 0, 1⟩]) ⟨3, ()⟩ "x").world⟩ :=
  ⟨by decide, by decide,
   claim_C7_remove_idempotent MemoryCacheStore
     (Cache.mk 100 (3/4) _policy_lru none 5 75
       [⟨"x", some ⟨"x", some ⟨7, 5, true⟩⟩, 5, 0, 0, 1⟩]) ⟨3, ()⟩ "x"
     (by decide) (by decide)⟩

/-- C3.  For every single-tier engine over the memory backend, every
key and every value: a `get_value(key)` issued immediately after a
`put_value(key, value)` that completed returns a value equal to
`value`, provided the put's own trim did not evict the key — stated as
the key being resident after the put (`findItem` succeeds).  The engine
state, the resident items (with unique keys), the capacity, the
threshold and the policy are arbitrary. -/
theorem claim_C3_get_after_put (n m : Nat) (c : Cache MemRep) (w : World Unit)
    (k : String) (v : Option PyValue) (it : Item MemRep)
    (hparent : c.parent_cache = none)
    (hnd : ((c.item_list.map (·.key)).Nodup))
    (hok : ∃ a, (put_value MemoryCacheStore n c w k v).ret = .ok a)
    (hres : (put_value MemoryCacheStore n c w k v).cache.findItem k = some it) :
    (get_value MemoryCacheStore (m + 1)
        (put_value MemoryCacheStore n c w k v).cache
        (put_value MemoryCacheStore n c w k v).world k).ret = .ok v := by
  have hnew : it.stored_value = some ⟨k, v⟩ := by
    match n with
    | 0 =>
      obtain ⟨a, ha⟩ := hok
      rw [put_value] at ha
      cases ha
    | n + 1 =>
      obtain ⟨cap, th, pol, pc, sz, mx, l⟩ := c
      rw [Cache.parent_mk] at hparent
      subst hparent
      rw [put_value_succ] at hok hres
      simp only [Cache.parent_mk, Cache.findItem_mk, Cache.item_list_mk,
        Cache.size_mk, Cache.withItems_mk, Cache.withSize_mk] at hok hres
      cases hf : l.find? (fun i => i.key = k) with
      | none =>
        simp only [hf, memory_storeOp_eq] at hok hres
        have hfin := add_item_fresh_key_find MemoryCacheStore n cap th pol sz mx l
          _ k _ it (by rfl) hf hok hres
        rw [hfin]
      | some old =>
        simp only [hf] at hok hres
        cases hdc : MemoryCacheStore.discard_value w.store k old.stored_value with
        | error e =>
          simp only [hdc] at hok
          obtain ⟨a, ha⟩ := hok
          cases ha
        | ok st =>
          simp only [hdc, memory_storeOp_eq] at hok hres
          have hl2 : (removeFirstByKey k l).find? (fun i => i.key = k) = none :=
            find?_removeFirstByKey_eq_none (by simpa using hnd)
          have hfin := add_item_fresh_key_find MemoryCacheStore n cap th pol
            (sz - old.stored_size) mx (removeFirstByKey k l)
            _ k _ it (by rfl) hl2 hok hres
          rw [hfin]
  rw [get_value_succ_hit MemoryCacheStore m (put_value MemoryCacheStore n c w k v).world hres]
  show (Item.restoreOp MemoryCacheStore it k (put_value MemoryCacheStore n c w k v).world).1
    = .ok v
  rw [memory_restoreOp_eq it k v _ hnew]

/-- Witness for C3: a fresh LRU memory engine (capacity 100, threshold
1/2); `put('a', 30-unit value)` completes without trimming and the
theorem yields `get('a') = that value`. -/
theorem claim_C3_get_after_put_witness :
    ((Cache.init 100 (1/2) _policy_lru none : Cache MemRep).parent_cache = none
     ∧ (((Cache.init 100 (1/2) _policy_lru none : Cache MemRep).item_list.map (·.key)).Nodup)
     ∧ (∃ a, (put_value MemoryCacheStore 2 (Cache.init 100 (1/2) _policy_lru none)
          ⟨0, ()⟩ "a" (some ⟨7, 30, true⟩)).ret = .ok a)
     ∧ (put_value MemoryCacheStore 2 (Cache.init 100 (1/2) _policy_lru none)
          ⟨0, ()⟩ "a" (some ⟨7, 30, true⟩)).cache.findItem "a"
        = some ⟨"a", some ⟨"a", some ⟨7, 30, true⟩⟩, 30, 0, 0, 1⟩)
    ∧ (get_value MemoryCacheStore 1
        (put_value MemoryCacheStore 2 (Cache.init 100 (1/2) _policy_lru none)
          ⟨0, ()⟩ "a" (some ⟨7, 30, true⟩)).cache
        (put_value MemoryCacheStore 2 (Cache.init 100 (1/2) _policy_lru none)
          ⟨0, ()⟩ "a" (some ⟨7, 30, true⟩)).world "a").ret
      = .ok (some ⟨7, 30, true⟩) :=
  ⟨⟨rfl, by decide, ⟨none, by decide⟩, by decide⟩,
   claim_C3_get_after_put 2 0 (Cache.init 100 (1/2) _policy_lru none) ⟨0, ()⟩
     "a" (some ⟨7, 30, true⟩) ⟨"a", some ⟨"a", some ⟨7, 30, true⟩⟩, 30, 0, 0, 1⟩
     rfl (by decide) ⟨none, by decide⟩ (by decide)⟩

/-- C10.  Two-tier demotion drops falsy values.  Both demotion paths —
the eviction loop of `trim` and the flush loop of
`clear(clear_parent=False)` — first read the value back out of the
child tier and store it into the parent only when it is truthy; run on
a key whose cached value is falsy (`None`, `0`, `''`, `b''`, ...), they
complete without error, the key's entry disappears from the child tier,
and the parent tier is left exactly unchanged: the value is silently
lost. -/
theorem claim_C10_falsy_demotion_lost (n : Nat) (c p : Cache MemRep)
    (w : World Unit) (k : String) (it : Item MemRep) (vv : Option PyValue)
    (hparent : c.parent_cache = some p)
    (hpp : p.parent_cache = none)
    (hfind : c.findItem k = some it)
    (hrep : it.stored_value = some ⟨k, vv⟩)
    (hfalsy : pyTruthy vv = false)
    (hnd : (c.item_list.map (·.key)).Nodup)
    (habs : p.findItem k = none) :
    ((trim_evict MemoryCacheStore (n + 2) [k] c w).ret = .ok none
      ∧ (trim_evict MemoryCacheStore (n + 2) [k] c w).cache.findItem k = none
      ∧ (trim_evict MemoryCacheStore (n + 2) [k] c w).cache.parent_cache = some p)
    ∧ ((clear_loop MemoryCacheStore (n + 2) [k] false c w).ret = .ok none
      ∧ (clear_loop MemoryCacheStore (n + 2) [k] false c w).cache.findItem k = none
      ∧ (clear_loop MemoryCacheStore (n + 2) [k] false c w).cache.parent_cache = some p) := by
  obtain ⟨cap, th, pol, pc, sz, mx, l⟩ := c
  rw [Cache.parent_mk] at hparent
  subst hparent
  rw [Cache.findItem_mk] at hfind
  rw [Cache.item_list_mk] at hnd
  have hitk : it.key = k := by
    have := List.find?_some hfind
    simpa using this
  have hg : get_value MemoryCacheStore (n + 1)
      (Cache.mk cap th pol (some p) sz mx l) w k
      = ⟨.ok vv,
         Cache.mk cap th pol (some p) sz mx
           (setFirstByKey k
             { it with access_time := w.clock, access_count := it.access_count + 1 } l),
         { w with clock := w.clock + 1 }⟩ := by
    rw [get_value_succ_hit MemoryCacheStore n w
          (show (Cache.mk cap th pol (some p) sz mx l).findItem k = some it
            from by simpa using hfind),
        memory_restoreOp_eq it k vv w hrep]
    rfl
  have hKA : Cache.keyAbsentAll k p = true := by
    obtain ⟨pcap, pth, ppol, ppc, psz, pmx, pl⟩ := p
    rw [Cache.parent_mk] at hpp
    subst hpp
    rw [Cache.findItem_mk] at habs
    rw [Cache.keyAbsentAll_mk]
    simp [habs]
  have hprem := remove_value_of_absent MemoryCacheStore p.depth p le_rfl
      { w with clock := w.clock + 1 } k hKA
  have hfs : (setFirstByKey k
        { it with access_time := w.clock, access_count := it.access_count + 1 } l).find?
        (fun i => i.key = k)
      = some { it with access_time := w.clock, access_count := it.access_count + 1 } :=
    find?_setFirstByKey hfind (by simpa using hitk)
  have hnd2 : ((setFirstByKey k
      { it with access_time := w.clock, access_count := it.access_count + 1 } l).map
        (·.key)).Nodup := by
    rw [map_key_setFirstByKey k _ (by simpa using hitk)]
    exact hnd
  have hrm : remove_value MemoryCacheStore
      (Cache.mk cap th pol (some p) sz mx
        (setFirstByKey k
          { it with access_time := w.clock, access_count := it.access_count + 1 } l))
      { w with clock := w.clock + 1 } k
      = ⟨.ok (),
         Cache.mk cap th pol (some p) (sz - it.stored_size) mx
           (removeFirstByKey k
             (setFirstByKey k
               { it with access_time := w.clock, access_count := it.access_count + 1 } l)),
         { w with clock := w.clock + 1 }⟩ := by
    rw [remove_value, hprem]
    simp only [Cache.findItem_mk, hfs]
    simp [MemoryCacheStore, hrep]
  refine ⟨?_, ?_⟩
  · rw [trim_evict_succ_parent MemoryCacheStore (n + 1) k [] w
        (Cache.parent_mk cap th pol (some p) sz mx l), hg]
    simp only [hrm, hfalsy, Bool.false_eq_true, if_false, trim_evict_succ_nil]
    refine ⟨by trivial, ?_, by trivial⟩
    simp only [Cache.findItem_mk]
    exact find?_removeFirstByKey_eq_none hnd2
  · rw [clear_loop_succ_cons_flush MemoryCacheStore (n + 1) k [] w
        (Cache.parent_mk cap th pol (some p) sz mx l), hg]
    simp only [hrm, hfalsy, Bool.false_eq_true, if_false, clear_loop_succ_nil]
    refine ⟨by trivial, ?_, by trivial⟩
    simp only [Cache.findItem_mk]
    exact find?_removeFirstByKey_eq_none hnd2

/-- Witness for C10: an LRU child holding a 30-unit falsy value for
`'a'` over an empty parent; both demotion paths complete, drop `'a'`
from the child and leave the parent untouched. -/
theorem claim_C10_falsy_demotion_lost_witness :
    ((Cache.mk 100 (1/2) _policy_lru
        (some (Cache.mk 1000 (3/4) _policy_lru none 0 750 []))
        30 50 [⟨"a", some ⟨"a", some ⟨0, 30, false⟩⟩, 30, 0, 0, 1⟩]
        : Cache MemRep).parent_cache
        = some (Cache.mk 1000 (3/4) _policy_lru none 0 750 [])
     ∧ (Cache.mk 1000 (3/4) _policy_lru none 0 750 []
        : Cache MemRep).parent_cache = none
     ∧ (Cache.mk 100 (1/2) _policy_lru
          (some (Cache.mk 1000 (3/4) _policy_lru none 0 750 []))
          30 50 [⟨"a", some ⟨"a", some ⟨0, 30, false⟩⟩, 30, 0, 0, 1⟩]
          : Cache MemRep).findItem "a"
        = some ⟨"a", some ⟨"a", some ⟨0, 30, false⟩⟩, 30, 0, 0, 1⟩
     ∧ pyTruthy (some ⟨0, 30, false⟩) = false
     ∧ (Cache.mk 1000 (3/4) _policy_lru none 0 750 []
        : Cache MemRep).findItem "a" = none)
    ∧ (((trim_evict MemoryCacheStore 2 ["a"]
          (Cache.mk 100 (1/2) _policy_lru
            (some (Cache.mk 1000 (3/4) _policy_lru none 0 750 []))
            30 50 [⟨"a", some ⟨"a", some ⟨0, 30, false⟩⟩, 30, 0, 0, 1⟩])
          ⟨5, ()⟩).ret = .ok none
        ∧ (trim_evict MemoryCacheStore 2 ["a"]
            (Cache.mk 100 (1/2) _policy_lru
              (some (Cache.mk 1000 (3/4) _policy_lru none 0 750 []))
              30 50 [⟨"a", some ⟨"a", some ⟨0, 30, false⟩⟩, 30, 0, 0, 1⟩])
            ⟨5, ()⟩).cache.findItem "a" = none
        ∧ (trim_evict MemoryCacheStore 2 ["a"]
            (Cache.mk 100 (1/2) _policy_lru
              (some (Cache.mk 1000 (3/4) _policy_lru none 0 750 []))
              30 50 [⟨"a", some ⟨"a", some ⟨0, 30, false⟩⟩, 30, 0, 0, 1⟩])
            ⟨5, ()⟩).cache.parent_cache
          = some (Cache.mk 1000 (3/4) _policy_lru none 0 750 []))
      ∧ ((clear_loop MemoryCacheStore 2 ["a"] false
          (Cache.mk 100 (1/2) _policy_lru
            (some (Cache.mk 1000 (3/4) _policy_lru none 0 750 []))
            30 50 [⟨"a", some ⟨"a", some ⟨0, 30, false⟩⟩, 30, 0, 0, 1⟩])
          ⟨5, ()⟩).ret = .ok none
        ∧ (clear_loop MemoryCacheStore 2 ["a"] false
            (Cache.mk 100 (1/2) _policy_lru
              (some (Cache.mk 1000 (3/4) _policy_lru none 0 750 []))
              30 50 [⟨"a", some ⟨"a", some ⟨0, 30, false⟩⟩, 30, 0, 0, 1⟩])
            ⟨5, ()⟩).cache.findItem "a" = none
        ∧ (clear_loop MemoryCacheStore 2 ["a"] false
            (Cache.mk 100 (1/2) _policy_lru
              (some (Cache.mk 1000 (3/4) _policy_lru none 0 750 []))
              30 50 [⟨"a", some ⟨"a", some ⟨0, 30, false⟩⟩, 30, 0, 0, 1⟩])
            ⟨5, ()⟩).cache.parent_cache
          = some (Cache.mk 1000 (3/4) _policy_lru none 0 750 []))) :=
  ⟨⟨rfl, rfl, by decide, rfl, rfl⟩,
   claim_C10_falsy_demotion_lost 0
     (Cache.mk 100 (1/2) _policy_lru
       (some (Cache.mk 1000 (3/4) _policy_lru none 0 750 []))
       30 50 [⟨"a", some ⟨"a", some ⟨0, 30, false⟩⟩, 30, 0, 0, 1⟩])
     (Cache.mk 1000 (3/4) _policy_lru none 0 750 [])
     ⟨5, ()⟩ "a" ⟨"a", some ⟨"a", some ⟨0, 30, false⟩⟩, 30, 0, 0, 1⟩
     (some ⟨0, 30, false⟩)
     rfl rfl (by decide) rfl rfl (by decide) rfl⟩

end Claims

end CateCache
